import Mathlib

/-!
Shallow embedding of the `k` kinematics library core: the arena tree of
`src/idtree.rs`, the link/chain/tree layer of `src/idtree_links.rs`, and the
parts of the crate the claims depend on that are not present under the source
tree (link/joint payload operations, `iter_descendants`, the Jacobian IK
solver), modelled from the specification.

Conventions of the embedding:
* `NodeId` is a plain `Nat` index into the arena's dense node sequence.
* The scalar type `T : Real` of the Rust code is embedded as `ℚ`.
* Poses (`nalgebra::Isometry3<T>`) are embedded as an abstract monoid `P`:
  the code only composes poses (`*`) and uses the identity pose, which is
  exactly the monoid structure.
* Rotation axes (`nalgebra::Vector3`) are embedded as an abstract type `V`,
  and the per-variant joint transform computation as an abstract function
  `jt : JointType V → ℚ → P`.
* Interior mutability (`RefCell`) becomes explicit state passing: operations
  that mutate through `&self` return the updated structure.
* Fallible operations return the updated state paired with an
  `Option JointError` (`none` = `Ok`), matching the Rust `Result` while
  keeping the partially-updated state observable.
-/

set_option maxHeartbeats 1000000

namespace KSpec

/-- Node of the arena tree (`IdNode<T>` in `idtree.rs`): parent/children
links, the `little_sister` back pointer, the node's own id and its payload. -/
structure IdNode (T : Type) where
  parent : Option Nat
  children : List Nat
  little_sister : Option Nat
  id : Nat
  data : T
deriving DecidableEq

/-- The arena tree (`IdTree<T>` in `idtree.rs`): the dense node sequence. -/
structure IdTree (T : Type) where
  nodes : List (IdNode T)
deriving DecidableEq

/-- Model of `IdNode::new`: fresh node with no parent, children or sister. -/
def IdNode.new {T : Type} (data : T) (id : Nat) : IdNode T :=
  { parent := none, children := [], little_sister := none, id := id, data := data }

instance {T : Type} [Inhabited T] : Inhabited (IdNode T) :=
  ⟨IdNode.new default 0⟩

namespace IdTree

variable {T : Type}

/-- Model of `IdTree::new`. -/
def new : IdTree T := { nodes := [] }

/-- Model of `IdTree::create_node`: appends a fresh node whose id is the next
dense index, returning the updated tree and the new id. -/
def create_node (t : IdTree T) (data : T) : IdTree T × Nat :=
  ({ nodes := t.nodes ++ [IdNode.new data t.nodes.length] }, t.nodes.length)

/-- Model of `IdTree::get`. Rust panics on an out-of-range id (a programmer
error per the spec); the model totalises with a default junk node, and every
theorem carries in-range hypotheses. -/
def getN [Inhabited T] (t : IdTree T) (i : Nat) : IdNode T :=
  t.nodes.getD i default

/-- Functional update of one node, mirroring a write through `get_mut`.
`List.set` out of range is a no-op (Rust would panic there). -/
def modifyNode [Inhabited T] (t : IdTree T) (i : Nat) (f : IdNode T → IdNode T) :
    IdTree T :=
  { nodes := t.nodes.set i (f (t.getN i)) }

/-- Model of `IdTree::set_parent_child`: if the parent already has children,
the last of them gets its `little_sister` set to the new child; then the child
id is appended to the parent's children and the child's `parent` is set. -/
def set_parent_child [Inhabited T] (t : IdTree T) (parent_id child_id : Nat) :
    IdTree T :=
  let pchildren := (t.getN parent_id).children
  let t1 :=
    match pchildren.getLast? with
    | some sister_id =>
        t.modifyNode sister_id (fun n => { n with little_sister := some child_id })
    | none => t
  let t2 := t1.modifyNode parent_id (fun n => { n with children := n.children ++ [child_id] })
  t2.modifyNode child_id (fun n => { n with parent := some parent_id })

/-- Fuelled unfolding of the `Ancestor` iterator of `idtree.rs`: yield the
current node, then continue from its parent until a parentless node. -/
def ancestorIds [Inhabited T] (t : IdTree T) : Nat → Nat → List Nat
  | 0, _ => []
  | fuel + 1, i =>
    i ::
      (match (t.getN i).parent with
       | none => []
       | some p => ancestorIds t fuel p)

/-- Model of `IdTree::iter_ancestors` (`idtree.rs`): the Rust iterator is lazy
and unbounded; on the well-formed trees the spec assumes, the parent chain is
acyclic and no longer than the node count, so fuel `nodes.length` reproduces
the whole yielded sequence of node ids. -/
def iter_ancestors [Inhabited T] (t : IdTree T) (i : Nat) : List Nat :=
  ancestorIds t t.nodes.length i

/-- Modelled from the spec: `IdTree::iter_descendants` is called by
`idtree_links.rs` but its definition is not among the source files here.
Spec §4.1: "lazy depth-first sequence rooted at `id`, inclusive; implemented
via an explicit stack (not recursion); order invariant: a node is always
produced before any of its descendants". Explicit-stack preorder DFS: pop a
node, yield it, push its children (in order) in front of the rest. -/
def descendantIds [Inhabited T] (t : IdTree T) : Nat → List Nat → List Nat
  | 0, _ => []
  | _ + 1, [] => []
  | fuel + 1, i :: rest => i :: descendantIds t fuel ((t.getN i).children ++ rest)

/-- Modelled from the spec (see `descendantIds`): the yielded id sequence of
`iter_descendants`. On well-formed trees the visited subtree has at most
`nodes.length` nodes, so that much fuel reproduces the whole sequence. -/
def iter_descendants [Inhabited T] (t : IdTree T) (i : Nat) : List Nat :=
  descendantIds t t.nodes.length [i]

end IdTree

/-- Modelled from the spec: the error type of `errors.rs` / `joints.rs` is not
among the source files here. §7 names the recoverable joint-assignment
errors: the angle-count mismatch (`SizeMisMatch`, spelling as used by
`idtree_links.rs`) and an individual joint rejecting an assignment (a Fixed
joint, or an out-of-limit value). -/
inductive JointError where
  | SizeMisMatch
  | OutOfLimit
deriving DecidableEq

/-- Modelled from the spec: the joint type tag of `joints.rs` is not among
the source files here. §3: "a joint carries a type tag from the variant set
{Fixed, Rotational(axis), Linear(axis)}". The axis type `V` is abstract. -/
inductive JointType (V : Type) where
  | Fixed
  | Rotational (axis : V)
  | Linear (axis : V)
deriving DecidableEq

/-- Modelled from the spec: the joint state of `joints.rs` is not among the
source files here. A named joint with its type tag, its mutable scalar state
("joint angle"), and an optional limit range. -/
structure Joint (V : Type) where
  name : String
  joint_type : JointType V
  angle : ℚ
  limits : Option (ℚ × ℚ)
deriving DecidableEq

/-- Modelled from the spec: the link payload of `links.rs` is not among the
source files here. §3: "immutable geometric offset (translation/rotation)
composed with a mutable joint state", plus the optionally-populated cached
last computed world transform. -/
structure Link (V P : Type) where
  name : String
  transform : P
  joint : Joint V
  world_transform_cache : Option P
deriving DecidableEq

namespace Link

variable {V P : Type}

/-- Modelled from the spec: only non-Fixed joints carry a settable scalar
state (§3); `has_joint_angle` tests for that. -/
def has_joint_angle (l : Link V P) : Bool :=
  match l.joint.joint_type with
  | .Fixed => false
  | .Rotational _ => true
  | .Linear _ => true

/-- Modelled from the spec: the current joint angle, absent for Fixed joints
(Fixed joints are excluded from all joint-indexed sequences, §4.2). -/
def get_joint_angle (l : Link V P) : Option ℚ :=
  if l.has_joint_angle then some l.joint.angle else none

/-- Modelled from the spec: assigning to a Fixed joint or assigning an
out-of-limit value fails (§6, §7); a successful write stores the angle and
invalidates the cached world transform (§3: the cache "is invalidated by any
joint-angle mutation"). -/
def set_joint_angle (l : Link V P) (a : ℚ) : Except JointError (Link V P) :=
  if l.has_joint_angle then
    match l.joint.limits with
    | some r =>
        if r.1 ≤ a ∧ a ≤ r.2 then
          .ok { l with joint := { l.joint with angle := a }, world_transform_cache := none }
        else .error .OutOfLimit
    | none =>
        .ok { l with joint := { l.joint with angle := a }, world_transform_cache := none }
  else .error .OutOfLimit

/-- Modelled from the spec: the link's local transform, its fixed geometric
offset composed with the joint motion derived from the current angle (§4.2),
the latter through the abstract per-variant computation `jt`. -/
def calc_transform [Monoid P] (jt : JointType V → ℚ → P) (l : Link V P) : P :=
  l.transform * jt l.joint.joint_type l.joint.angle

end Link

instance {V P : Type} [Monoid P] : Inhabited (Link V P) :=
  ⟨{ name := ""
     transform := 1
     joint := { name := "", joint_type := .Fixed, angle := 0, limits := none }
     world_transform_cache := none }⟩

/-- Chain view of `idtree_links.rs` (`IdKinematicChain<T>`): an ordered id
list over a tree of links, a base transform, and the private
`end_link_name`. The Rust chain borrows the tree mutably; the model holds the
tree state directly and returns it updated. -/
structure IdKinematicChain (V P : Type) where
  name : String
  id_list : List Nat
  transform : P
  tree : IdTree (Link V P)
  end_link_name : Option String

namespace IdKinematicChain

variable {V P : Type} [Monoid P]

/-- Model of `IdKinematicChain::new` (`idtree_links.rs` lines 42-51):
identity base transform and `end_link_name = None`. -/
def new (name : String) (tree : IdTree (Link V P)) (id_list : List Nat) :
    IdKinematicChain V P :=
  { name := name
    id_list := id_list
    transform := 1
    tree := tree
    end_link_name := none }

/-- Loop body of `calc_end_transform`: multiply in each link's local
transform; if an end link name is configured and matches the current link's
name, return immediately. -/
def calcEndAux (jt : JointType V → ℚ → P) (tree : IdTree (Link V P))
    (endName : Option String) : List Nat → P → P
  | [], acc => acc
  | id :: rest, acc =>
    let acc' := acc * ((tree.getN id).data.calc_transform jt)
    match endName with
    | some nm => if nm = (tree.getN id).data.name then acc' else calcEndAux jt tree endName rest acc'
    | none => calcEndAux jt tree endName rest acc'

/-- Model of `IdKinematicChain::calc_end_transform` (`idtree_links.rs`
lines 57-69). -/
def calc_end_transform (jt : JointType V → ℚ → P) (c : IdKinematicChain V P) : P :=
  calcEndAux jt c.tree c.end_link_name c.id_list c.transform

/-- Running scan of cumulative transforms, the body of the chain's
`calc_link_transforms`. -/
def chainScan (jt : JointType V → ℚ → P) (tree : IdTree (Link V P)) :
    List Nat → P → List P
  | [], _ => []
  | id :: rest, base =>
    let b := base * ((tree.getN id).data.calc_transform jt)
    b :: chainScan jt tree rest b

/-- Model of `IdKinematicChain::calc_link_transforms` (`idtree_links.rs`
lines 76-84): the cumulative pose after every link of the id list. -/
def calc_link_transforms (jt : JointType V → ℚ → P) (c : IdKinematicChain V P) :
    List P :=
  chainScan jt c.tree c.id_list c.transform

/-- Model of `IdKinematicChain::get_joint_angles` (`idtree_links.rs`
lines 112-117): one angle per non-Fixed joint along the chain, in order. -/
def get_joint_angles (c : IdKinematicChain V P) : List ℚ :=
  c.id_list.filterMap (fun id => (c.tree.getN id).data.get_joint_angle)

/-- Sequential joint assignment with early error return, the loop of both
`set_joint_angles` implementations: on a per-joint failure the error is
returned and the remaining assignments are not applied (`try!` / `?`). -/
def setAnglesList (tree : IdTree (Link V P)) :
    List (Nat × ℚ) → IdTree (Link V P) × Option JointError
  | [] => (tree, none)
  | (id, a) :: rest =>
    match (tree.getN id).data.set_joint_angle a with
    | .error e => (tree, some e)
    | .ok newLink =>
        setAnglesList (tree.modifyNode id (fun nd => { nd with data := newLink })) rest

/-- Model of `IdKinematicChain::set_joint_angles` (`idtree_links.rs`
lines 97-111): the ids with a settable joint are collected first, the length
of the input is validated against them before any assignment
(`SizeMisMatch` on mismatch), then the angles are assigned in order. -/
def set_joint_angles (c : IdKinematicChain V P) (angles : List ℚ) :
    IdKinematicChain V P × Option JointError :=
  let links_with_angle := c.id_list.filter (fun id => (c.tree.getN id).data.has_joint_angle)
  if links_with_angle.length ≠ angles.length then (c, some .SizeMisMatch)
  else
    let r := setAnglesList c.tree (links_with_angle.zip angles)
    ({ c with tree := r.1 }, r.2)

end IdKinematicChain

/-- Whole-mechanism wrapper of `idtree_links.rs` (`IdLinkTree<T>`): a named
arena tree of links. -/
structure IdLinkTree (V P : Type) where
  name : String
  tree : IdTree (Link V P)

namespace IdLinkTree

variable {V P : Type} [Monoid P]

/-- Model of `IdLinkTree::get_root_node_id` (`idtree_links.rs` lines
159-167): linear scan in creation order for the first parentless node; the
Rust code asserts (and falls back to id 0) when none exists. -/
def get_root_node_id (lt : IdLinkTree V P) : Nat :=
  match lt.tree.nodes.find? (fun nd => nd.parent = none) with
  | some nd => nd.id
  | none => 0

/-- Model of `IdLinkTree::set_root_transform` (`idtree_links.rs` lines
168-171): writes the local transform of the node with id 0
(`self.tree.get_mut(&NodeId(0))`), whatever node that is. -/
def set_root_transform (lt : IdLinkTree V P) (transform : P) : IdLinkTree V P :=
  { lt with
    tree := lt.tree.modifyNode 0 (fun nd => { nd with data := { nd.data with transform := transform } }) }

/-- Model of `IdLinkTree::dof` (`idtree_links.rs` lines 188-191): the number
of nodes whose joint is settable, over the whole node sequence. -/
def dof (lt : IdLinkTree V P) : Nat :=
  (lt.tree.nodes.filter (fun nd => nd.data.has_joint_angle)).length

/-- Model of `IdLinkTree::get_joint_angles` (`idtree_links.rs` lines
202-206): angles of the non-Fixed joints in creation order. -/
def get_joint_angles (lt : IdLinkTree V P) : List ℚ :=
  lt.tree.nodes.filterMap (fun nd => nd.data.get_joint_angle)

/-- Loop of the tree-level `set_joint_angles`: walk the node sequence in
creation order; each node with a settable joint consumes the next input
angle; a per-joint failure returns immediately, leaving the rest
unmodified. -/
def setTreeAngles : List (IdNode (Link V P)) → List ℚ →
    List (IdNode (Link V P)) × Option JointError
  | [], _ => ([], none)
  | nd :: rest, [] => (nd :: rest, none)
  | nd :: rest, a :: as' =>
    if nd.data.has_joint_angle then
      match nd.data.set_joint_angle a with
      | .error e => (nd :: rest, some e)
      | .ok l' =>
          let r := setTreeAngles rest as'
          ({ nd with data := l' } :: r.1, r.2)
    else
      let r := setTreeAngles rest (a :: as')
      (nd :: r.1, r.2)

/-- Model of `IdLinkTree::set_joint_angles` (`idtree_links.rs` lines
211-219): the input length is validated against `dof()` before any
assignment (`SizeMisMatch` on mismatch), then the angles are zipped onto the
non-Fixed-joint nodes in creation order. -/
def set_joint_angles (lt : IdLinkTree V P) (angles_vec : List ℚ) :
    IdLinkTree V P × Option JointError :=
  if angles_vec.length ≠ lt.dof then (lt, some .SizeMisMatch)
  else
    let r := setTreeAngles lt.tree.nodes angles_vec
    ({ lt with tree := { nodes := r.1 } }, r.2)

/-- The effective parent transform read by the whole-tree FK pass
(`idtree_links.rs` lines 241-249): the parent's cached world transform,
identity when the node has no parent or the parent's cache is empty. -/
def parentCacheT (t : IdTree (Link V P)) (id : Nat) : P :=
  match (t.getN id).parent with
  | some p =>
    match (t.getN p).data.world_transform_cache with
    | some c => c
    | none => 1
  | none => 1

/-- One step of the whole-tree FK pass of `IdLinkTree::calc_link_transforms`
(`idtree_links.rs` lines 237-255), threading the tree state through the
visited id sequence: the effective parent transform is composed with the
node's local transform, the result is written into the node's cache and
yielded. -/
def fkFold (jt : JointType V → ℚ → P) (t : IdTree (Link V P)) :
    List Nat → IdTree (Link V P) × List P
  | [] => (t, [])
  | id :: rest =>
    let tr := parentCacheT t id * ((t.getN id).data.calc_transform jt)
    let t' := t.modifyNode id (fun nd => { nd with data := { nd.data with world_transform_cache := some tr } })
    let r := fkFold jt t' rest
    (r.1, tr :: r.2)

/-- Model of `IdLinkTree::calc_link_transforms` (`idtree_links.rs` lines
237-255): folds `fkFold` over `iter_descendants(NodeId(0))` and returns the
updated tree (cache writes) together with the collected poses. -/
def calc_link_transforms (jt : JointType V → ℚ → P) (lt : IdLinkTree V P) :
    IdLinkTree V P × List P :=
  let r := fkFold jt lt.tree (lt.tree.iter_descendants 0)
  ({ lt with tree := r.1 }, r.2)

/-- Model of `IdLinkTree::chain_from_end_link_name` (`idtree_links.rs` lines
265-294): find the first node (creation order) whose link name matches; walk
`iter_ancestors` from it, reverse into root-to-leaf order, and build a chain
over that id list; `none` when no link has the name. -/
def chain_from_end_link_name (lt : IdLinkTree V P) (end_link_name : String) :
    Option (IdKinematicChain V P) :=
  match lt.tree.nodes.find? (fun nd => nd.data.name = end_link_name) with
  | none => none
  | some nd =>
    let ids := (lt.tree.iter_ancestors nd.id).reverse
    some (IdKinematicChain.new end_link_name lt.tree ids)

end IdLinkTree

/-- Modelled from the spec: the IK error type is not among the source files
here. §7: "failure to converge within the iteration budget — recoverable,
reported". -/
inductive IKError where
  | NotConverged
deriving DecidableEq

/-- Modelled from the spec: the Jacobian IK solver configuration is not among
the source files here. §4.4: "a position-error tolerance, an
orientation-error tolerance, a joint-angle step-size threshold, and a maximum
iteration count". -/
structure JacobianIKSolver where
  allowable_target_distance : ℚ
  allowable_target_angle : ℚ
  move_epsilon : ℚ
  num_max_try : Nat

namespace JacobianIKSolver

variable {S : Type}

/-- Modelled from the spec: the solver loop of §4.4 over an abstract chain
state `S` (the chain with its joint angles). `errT`/`errR` give the
translational and rotational error norms of the chain's current end transform
against the fixed target, and `step` is one damped-least-squares Jacobian
update of the joint angles (§4.4 steps 3-5). Per call: check both tolerances
(zero-iteration success is valid), otherwise apply one step and repeat;
when the iteration budget is exhausted, fail with `NotConverged`, leaving the
state at its last attempted value. -/
def solveLoop (errT errR : S → ℚ) (step : S → S) (tolT tolR : ℚ) :
    Nat → S → S × Option IKError
  | 0, s => (s, some .NotConverged)
  | n + 1, s =>
    if errT s < tolT ∧ errR s < tolR then (s, none)
    else solveLoop errT errR step tolT tolR n (step s)

/-- Modelled from the spec: `solve(chain, target)` runs the loop for at most
`num_max_try` iterations starting from the chain's current state. -/
def solve (cfg : JacobianIKSolver) (errT errR : S → ℚ) (step : S → S) (s : S) :
    S × Option IKError :=
  solveLoop errT errR step cfg.allowable_target_distance cfg.allowable_target_angle
    cfg.num_max_try s

end JacobianIKSolver

/-- First-child/next-sibling encoding of a finite forest of node ids: the
shape certificate used to phrase the spec's tree well-formedness (acyclic,
mutually consistent parent/child links). -/
inductive Forest where
  | nil : Forest
  | node (root : Nat) (children siblings : Forest) : Forest
deriving DecidableEq

namespace Forest

/-- Roots of the forest's trees, in order. -/
def roots : Forest → List Nat
  | .nil => []
  | .node i _ s => i :: s.roots

/-- Preorder flattening: every root before all of its subtree's nodes. -/
def flatten : Forest → List Nat
  | .nil => []
  | .node i c s => i :: (c.flatten ++ s.flatten)

end Forest

/-- Forest `f` is laid out in tree `t`: every tree of `f` is rooted at a
valid node whose stored `children` are exactly the roots of its child
forest, each of those children's stored `parent` points back at it (the
spec's mutual consistency), recursively. -/
def MatchesAux {T : Type} [Inhabited T] (t : IdTree T) : Forest → Prop
  | .nil => True
  | .node i c s =>
    i < t.nodes.length ∧
    (t.getN i).children = c.roots ∧
    (∀ j ∈ c.roots, (t.getN j).parent = some i) ∧
    MatchesAux t c ∧ MatchesAux t s

/-- A well-formed subtree of `t` rooted at `i` with child forest `c`: the
layout matches, no node occurs twice (acyclicity, no sharing), and every
node id of the subtree is in range. -/
def WFSubtree {T : Type} [Inhabited T] (t : IdTree T) (i : Nat) (c : Forest) : Prop :=
  MatchesAux t (.node i c .nil) ∧
    (Forest.node i c .nil).flatten.Nodup ∧
    ∀ j ∈ (Forest.node i c .nil).flatten, j < t.nodes.length

/-- `k` lies in the subtree rooted at `i`, following stored children
lists. -/
inductive IsDesc {T : Type} [Inhabited T] (t : IdTree T) : Nat → Nat → Prop where
  | refl (i : Nat) : IsDesc t i i
  | step {i j c : Nat} : IsDesc t i j → c ∈ (t.getN j).children → IsDesc t i c

/-- Depth of a node along stored `parent` links: a parentless node has
depth 0. -/
inductive IsDepth {T : Type} [Inhabited T] (t : IdTree T) : Nat → Nat → Prop where
  | root {i : Nat} : (t.getN i).parent = none → IsDepth t i 0
  | step {i p d : Nat} : (t.getN i).parent = some p → IsDepth t p d → IsDepth t i (d + 1)

/-- Composition of the local link transforms along the root-to-node path,
read off the stored `parent` links (fuelled; stable once the fuel reaches
the node's depth). -/
def pathProd {V P : Type} [Monoid P] (jt : JointType V → ℚ → P)
    (t : IdTree (Link V P)) : Nat → Nat → P
  | 0, j => (t.getN j).data.calc_transform jt
  | fuel + 1, j =>
    match (t.getN j).parent with
    | none => (t.getN j).data.calc_transform jt
    | some p => pathProd jt t fuel p * ((t.getN j).data.calc_transform jt)

/-- Trees `t` and `u` agree on everything except possibly the per-link world
transform caches: same length, same links/joints/names/ids and same tree
structure node by node. -/
def CacheOnly {V P : Type} [Monoid P] (t u : IdTree (Link V P)) : Prop :=
  u.nodes.length = t.nodes.length ∧
  ∀ j : Nat,
    (u.getN j).parent = (t.getN j).parent ∧
    (u.getN j).children = (t.getN j).children ∧
    (u.getN j).little_sister = (t.getN j).little_sister ∧
    (u.getN j).id = (t.getN j).id ∧
    (u.getN j).data.name = (t.getN j).data.name ∧
    (u.getN j).data.transform = (t.getN j).data.transform ∧
    (u.getN j).data.joint = (t.getN j).data.joint

/-! Concrete instances used to evaluate the development on explicit
trees: poses are rationals under multiplication, axes are trivial, and the
joint motion contributes the identity pose. -/

/-- Joint transform instance for the concrete examples over `P = ℚ`. -/
def exJt : JointType Unit → ℚ → ℚ := fun _ _ => 1

/-- A fixed-joint link named `nm` with identity offset. -/
def exLink (nm : String) : Link Unit ℚ :=
  { name := nm
    transform := 1
    joint := { name := nm ++ "_j", joint_type := .Fixed, angle := 0, limits := none }
    world_transform_cache := none }

/-- A rotational link named `nm` at angle `a` with the given optional
limits. -/
def exRotLink (nm : String) (a : ℚ) (lim : Option (ℚ × ℚ)) : Link Unit ℚ :=
  { name := nm
    transform := 1
    joint := { name := nm ++ "_j", joint_type := .Rotational (), angle := a, limits := lim }
    world_transform_cache := none }

/-- Two-node tree built through the arena operations whose unique parentless
root is node 1: node 0 is created first and then attached as the child of
node 1. -/
def exTreeRootOne : IdTree (Link Unit ℚ) :=
  (((IdTree.new.create_node (exLink "child")).1.create_node (exLink "root")).1).set_parent_child 1 0

def exLinkTreeRootOne : IdLinkTree Unit ℚ :=
  { name := "ex", tree := exTreeRootOne }

/-- Three-node chain 0 → 1 → 2 built through the arena operations, rooted at
node 0 (created first). -/
def exTreeChain : IdTree (Link Unit ℚ) :=
  (((((IdTree.new.create_node (exLink "l0")).1.create_node (exLink "l1")).1.create_node
    (exLink "l2")).1).set_parent_child 0 1).set_parent_child 1 2

def exLinkTreeChain : IdLinkTree Unit ℚ :=
  { name := "chain", tree := exTreeChain }

/-- Two rotational links for the chain examples: one limited joint at angle
0, one free joint at angle 1/2. -/
def exChainTree : IdTree (Link Unit ℚ) :=
  ((IdTree.new.create_node (exRotLink "r0" 0 (some (-1, 1)))).1.create_node
    (exRotLink "r1" (1/2) none)).1

/-- A two-link kinematic chain over `exChainTree`. -/
def exChain : IdKinematicChain Unit ℚ :=
  IdKinematicChain.new "arm" exChainTree [0, 1]

/-- A solver configuration with an iteration cap of 1. -/
def exSolver : JacobianIKSolver :=
  { allowable_target_distance := 1
    allowable_target_angle := 1
    move_epsilon := 1
    num_max_try := 1 }

/-! Access lemmas for the arena tree. -/

namespace IdTree

variable {T : Type} [Inhabited T]

theorem length_modifyNode (t : IdTree T) (i : Nat) (f : IdNode T → IdNode T) :
    (t.modifyNode i f).nodes.length = t.nodes.length :=
  List.length_set t.nodes i _

theorem getN_modifyNode (t : IdTree T) (i j : Nat) (f : IdNode T → IdNode T) :
    (t.modifyNode i f).getN j =
      if i = j ∧ i < t.nodes.length then f (t.getN i) else t.getN j := by
  unfold modifyNode getN
  simp only [List.getD_eq_getElem?_getD, List.getElem?_set]
  by_cases h : i = j
  · subst h
    by_cases hl : i < t.nodes.length
    · simp [hl]
    · simp [hl, List.getElem?_eq_none (Nat.le_of_not_lt hl)]
  · simp [h]

/-- A node update that does not change a given field leaves that field of
every node of the tree unchanged. -/
theorem getN_modifyNode_preserve {α : Type} (t : IdTree T) (i : Nat)
    (f : IdNode T → IdNode T) (g : IdNode T → α) (hf : ∀ n, g (f n) = g n)
    (j : Nat) : g ((t.modifyNode i f).getN j) = g (t.getN j) := by
  rw [getN_modifyNode]
  by_cases h : i = j ∧ i < t.nodes.length
  · rw [if_pos h, hf, h.1]
  · rw [if_neg h]

theorem getN_modifyNode_self (t : IdTree T) (i : Nat) (f : IdNode T → IdNode T)
    (h : i < t.nodes.length) : (t.modifyNode i f).getN i = f (t.getN i) := by
  rw [getN_modifyNode]
  simp [h]

theorem getN_modifyNode_other (t : IdTree T) (i j : Nat) (f : IdNode T → IdNode T)
    (h : i ≠ j) : (t.modifyNode i f).getN j = t.getN j := by
  rw [getN_modifyNode]
  simp [h]

end IdTree

/-- Core of the `set_parent_child` analysis: the last two node updates
(append `c` to `p`'s children, set `c`'s parent) applied to any tree `t1`
that agrees with `t` on lengths, parents and children (the sister update
only touches `little_sister`). -/
theorem spc_core {T : Type} [Inhabited T] (t t1 : IdTree T) (p c : Nat)
    (hp : p < t.nodes.length) (hc : c < t.nodes.length) (hpc : p ≠ c)
    (hcp : c ∉ (t.getN p).children)
    (hlen1 : t1.nodes.length = t.nodes.length)
    (hpar1 : ∀ j : Nat, (t1.getN j).parent = (t.getN j).parent)
    (hch1 : ∀ j : Nat, (t1.getN j).children = (t.getN j).children) :
    (((t1.modifyNode p (fun n => { n with children := n.children ++ [c] })).modifyNode c
        (fun n => { n with parent := some p })).getN c).parent = some p ∧
    (((t1.modifyNode p (fun n => { n with children := n.children ++ [c] })).modifyNode c
        (fun n => { n with parent := some p })).getN p).children
      = (t.getN p).children ++ [c] ∧
    (((t1.modifyNode p (fun n => { n with children := n.children ++ [c] })).modifyNode c
        (fun n => { n with parent := some p })).getN p).children.count c = 1 ∧
    (∀ j : Nat, j ≠ c →
      (((t1.modifyNode p (fun n => { n with children := n.children ++ [c] })).modifyNode c
          (fun n => { n with parent := some p })).getN j).parent = (t.getN j).parent) ∧
    (∀ j : Nat, j ≠ p →
      (((t1.modifyNode p (fun n => { n with children := n.children ++ [c] })).modifyNode c
          (fun n => { n with parent := some p })).getN j).children = (t.getN j).children) ∧
    ((t1.modifyNode p (fun n => { n with children := n.children ++ [c] })).modifyNode c
        (fun n => { n with parent := some p })).nodes.length = t.nodes.length := by
  set t2 := t1.modifyNode p (fun n => { n with children := n.children ++ [c] }) with ht2
  have hlen2 : t2.nodes.length = t.nodes.length := by
    rw [ht2, IdTree.length_modifyNode, hlen1]
  have hpar2 : ∀ j : Nat, (t2.getN j).parent = (t.getN j).parent := by
    intro j
    rw [ht2]
    rw [IdTree.getN_modifyNode_preserve t1 p (fun n => { n with children := n.children ++ [c] })
      (fun n => n.parent) (fun n => rfl) j]
    exact hpar1 j
  have hch2p : (t2.getN p).children = (t.getN p).children ++ [c] := by
    rw [ht2, IdTree.getN_modifyNode_self _ p _ (by rw [hlen1]; exact hp), hch1]
  have hch2 : ∀ j : Nat, j ≠ p → (t2.getN j).children = (t.getN j).children := by
    intro j hj
    rw [ht2, IdTree.getN_modifyNode_other _ p j _ (fun h => hj h.symm)]
    exact hch1 j
  have hchpres : ∀ j : Nat,
      ((t2.modifyNode c (fun n => { n with parent := some p })).getN j).children
        = (t2.getN j).children :=
    fun j => IdTree.getN_modifyNode_preserve t2 c (fun n => { n with parent := some p })
      (fun n => n.children) (fun n => rfl) j
  refine ⟨?_, ?_, ?_, ?_, ?_, ?_⟩
  · rw [IdTree.getN_modifyNode_self _ c _ (by rw [hlen2]; exact hc)]
  · rw [hchpres p]
    exact hch2p
  · rw [hchpres p, hch2p]
    simp [List.count_append, List.count_eq_zero_of_not_mem hcp]
  · intro j hj
    rw [IdTree.getN_modifyNode_other _ c j _ (fun h => hj h.symm)]
    exact hpar2 j
  · intro j hj
    rw [hchpres j]
    exact hch2 j hj
  · rw [IdTree.length_modifyNode, hlen2]

/-- C6: after `set_parent_child(p, c)` on a tree whose precondition holds
(`p`, `c` valid and distinct, `c` not yet attached to `p`, `p` not its own
child), the child's `parent` is `some p`, the parent's children sequence is
the old one with `c` appended (so children appear in the order the calls
were made) and contains `c` exactly once, and all other nodes' parent and
children links, as well as the node count, are unchanged. -/
theorem set_parent_child_spec {T : Type} [Inhabited T] (t : IdTree T) (p c : Nat)
    (hp : p < t.nodes.length) (hc : c < t.nodes.length) (hpc : p ≠ c)
    (hcp : c ∉ (t.getN p).children) (hpp : p ∉ (t.getN p).children) :
    ((t.set_parent_child p c).getN c).parent = some p ∧
    ((t.set_parent_child p c).getN p).children = (t.getN p).children ++ [c] ∧
    ((t.set_parent_child p c).getN p).children.count c = 1 ∧
    (∀ j : Nat, j ≠ c → ((t.set_parent_child p c).getN j).parent = (t.getN j).parent) ∧
    (∀ j : Nat, j ≠ p → ((t.set_parent_child p c).getN j).children = (t.getN j).children) ∧
    (t.set_parent_child p c).nodes.length = t.nodes.length := by
  simp only [IdTree.set_parent_child]
  cases hcase : (t.getN p).children.getLast? with
  | none =>
    exact spc_core t t p c hp hc hpc hcp rfl (fun j => rfl) (fun j => rfl)
  | some sister_id =>
    exact spc_core t
      (t.modifyNode sister_id (fun n => { n with little_sister := some c }))
      p c hp hc hpc hcp (t.length_modifyNode _ _)
      (fun j => IdTree.getN_modifyNode_preserve t sister_id
        (fun n => { n with little_sister := some c }) (fun n => n.parent)
        (fun n => rfl) j)
      (fun j => IdTree.getN_modifyNode_preserve t sister_id
        (fun n => { n with little_sister := some c }) (fun n => n.children)
        (fun n => rfl) j)

/-! Ancestor traversal. -/

theorem getLast?_cons_of_getLast? {α : Type} (a x : α) (l : List α)
    (h : l.getLast? = some x) : (a :: l).getLast? = some x := by
  cases l with
  | nil => simp at h
  | cons b l' => rw [List.getLast?_cons_cons]; exact h

/-- The fuelled ancestor unfolding is exact as soon as the fuel exceeds the
node's depth: it starts at the node, has length depth + 1, ends at a
parentless node, and every element before the last has a parent. -/
theorem ancestorIds_spec {T : Type} [Inhabited T] {t : IdTree T} {i d : Nat}
    (h : IsDepth t i d) :
    ∀ fuel, d < fuel →
      (t.ancestorIds fuel i).length = d + 1 ∧
      (t.ancestorIds fuel i).head? = some i ∧
      (∃ r, (t.ancestorIds fuel i).getLast? = some r ∧ (t.getN r).parent = none) ∧
      (∀ j ∈ (t.ancestorIds fuel i).dropLast, (t.getN j).parent ≠ none) := by
  induction h with
  | root hpar =>
    intro fuel hfuel
    match fuel, hfuel with
    | f + 1, _ =>
      rw [IdTree.ancestorIds, hpar]
      refine ⟨rfl, rfl, ⟨_, rfl, hpar⟩, ?_⟩
      intro j hj
      simp at hj
  | @step i p d hpar _ ih =>
    intro fuel hfuel
    match fuel, hfuel with
    | f + 1, _ =>
      have hdf : d < f := by omega
      obtain ⟨ihlen, ihhead, ⟨r, ihlast, ihr⟩, ihdrop⟩ := ih f hdf
      have hne : t.ancestorIds f p ≠ [] := by
        intro he
        rw [he] at ihlen
        simp at ihlen
      rw [IdTree.ancestorIds, hpar]
      refine ⟨?_, rfl, ⟨r, ?_, ihr⟩, ?_⟩
      · simp [ihlen]
      · exact getLast?_cons_of_getLast? i r _ ihlast
      · rw [List.dropLast_cons_of_ne_nil hne]
        intro j hj
        rcases List.mem_cons.mp hj with rfl | hj'
        · rw [hpar]
          exact fun he => Option.noConfusion he
        · exact ihdrop j hj'

/-! Descendant traversal: forest shapes and the DFS order invariant. -/

theorem matchesAux_node {T : Type} [Inhabited T] (t : IdTree T) (i : Nat) (c s : Forest) :
    MatchesAux t (.node i c s) ↔
      (i < t.nodes.length ∧ (t.getN i).children = c.roots ∧
        (∀ j ∈ c.roots, (t.getN j).parent = some i) ∧
        MatchesAux t c ∧ MatchesAux t s) :=
  Iff.rfl

theorem mem_flatten_of_mem_roots (f : Forest) (j : Nat) (h : j ∈ f.roots) :
    j ∈ f.flatten := by
  induction f with
  | nil => simp [Forest.roots] at h
  | node i c s ihc ihs =>
    rw [Forest.roots] at h
    rw [Forest.flatten]
    rcases List.mem_cons.mp h with rfl | h'
    · exact List.mem_cons_self _ _
    · exact List.mem_cons_of_mem _ (List.mem_append_right _ (ihs h'))

theorem descendantIds_nil_stack {T : Type} [Inhabited T] (t : IdTree T) (fuel : Nat) :
    t.descendantIds fuel [] = [] := by
  cases fuel <;> rfl

/-- The explicit-stack DFS with a matching forest on top of the stack
consumes exactly the forest's preorder flattening. -/
theorem descendantIds_forest {T : Type} [Inhabited T] (t : IdTree T) :
    ∀ f : Forest, MatchesAux t f →
      ∀ fuel rest, t.descendantIds (f.flatten.length + fuel) (f.roots ++ rest)
        = f.flatten ++ t.descendantIds fuel rest := by
  intro f
  induction f with
  | nil =>
    intro _ fuel rest
    simp [Forest.flatten, Forest.roots]
  | node i c s ihc ihs =>
    intro hm fuel rest
    obtain ⟨hi, hch, hpar, hmc, hms⟩ := (matchesAux_node t i c s).mp hm
    rw [Forest.flatten, Forest.roots]
    have harith : (i :: (c.flatten ++ s.flatten)).length + fuel
        = (c.flatten.length + (s.flatten.length + fuel)) + 1 := by
      simp [List.length_append]
      omega
    rw [harith, List.cons_append, IdTree.descendantIds, hch,
      ihc hmc (s.flatten.length + fuel) (s.roots ++ rest), ihs hms fuel rest]
    simp

theorem nodup_length_le (l : List Nat) (n : Nat) (hn : l.Nodup)
    (hb : ∀ x ∈ l, x < n) : l.length ≤ n := by
  have h1 : l.toFinset ⊆ Finset.range n :=
    fun x hx => Finset.mem_range.mpr (hb x (List.mem_toFinset.mp hx))
  have h2 := Finset.card_le_card h1
  rw [List.toFinset_card_of_nodup hn, Finset.card_range] at h2
  exact h2

/-- On a well-formed subtree, `iter_descendants` yields exactly the preorder
flattening of its shape. -/
theorem iter_descendants_eq_flatten {T : Type} [Inhabited T] (t : IdTree T)
    (i : Nat) (c : Forest) (h : WFSubtree t i c) :
    t.iter_descendants i = (Forest.node i c .nil).flatten := by
  obtain ⟨hm, hnd, hb⟩ := h
  have hlen : (Forest.node i c .nil).flatten.length ≤ t.nodes.length :=
    nodup_length_le _ _ hnd hb
  have heq : t.nodes.length
      = (Forest.node i c .nil).flatten.length
        + (t.nodes.length - (Forest.node i c .nil).flatten.length) := by omega
  have hroots : [i] = (Forest.node i c .nil).roots ++ [] := by
    simp [Forest.roots]
  rw [IdTree.iter_descendants, heq, hroots, descendantIds_forest t _ hm]
  simp [descendantIds_nil_stack]

/-- Subtree extraction: every node of a matched forest has its own matching
child forest, and the node followed by that forest's flattening embeds as a
sublist of the whole flattening. -/
theorem flatten_subtree {T : Type} [Inhabited T] (t : IdTree T) :
    ∀ f : Forest, MatchesAux t f → ∀ j ∈ f.flatten,
      ∃ g : Forest, (t.getN j).children = g.roots ∧
        (∀ k ∈ g.roots, (t.getN k).parent = some j) ∧
        MatchesAux t g ∧ (j :: g.flatten).Sublist f.flatten := by
  intro f
  induction f with
  | nil =>
    intro _ j hj
    simp [Forest.flatten] at hj
  | node i c s ihc ihs =>
    intro hm j hj
    obtain ⟨hi, hch, hpar, hmc, hms⟩ := (matchesAux_node t i c s).mp hm
    rw [Forest.flatten] at hj ⊢
    rcases List.mem_cons.mp hj with rfl | hj'
    · exact ⟨c, hch, hpar, hmc,
        List.cons_sublist_cons.mpr (List.sublist_append_left _ _)⟩
    · rcases List.mem_append.mp hj' with hjc | hjs
      · obtain ⟨g, h1, h2, h3, h4⟩ := ihc hmc j hjc
        exact ⟨g, h1, h2, h3, (h4.trans (List.sublist_append_left _ _)).cons i⟩
      · obtain ⟨g, h1, h2, h3, h4⟩ := ihs hms j hjs
        exact ⟨g, h1, h2, h3, (h4.trans (List.sublist_append_right _ _)).cons i⟩

theorem isDesc_trans {T : Type} [Inhabited T] {t : IdTree T} {a b c : Nat}
    (h1 : IsDesc t a b) (h2 : IsDesc t b c) : IsDesc t a c := by
  induction h2 with
  | refl => exact h1
  | step _ hc ih => exact IsDesc.step ih hc

/-- Matched flattenings are closed under taking descendants. -/
theorem isDesc_mem_flatten {T : Type} [Inhabited T] (t : IdTree T) (f : Forest)
    (hm : MatchesAux t f) {j k : Nat} (hjk : IsDesc t j k) (hj : j ∈ f.flatten) :
    k ∈ f.flatten := by
  induction hjk with
  | refl => exact hj
  | step _ hc ih =>
    obtain ⟨g, h1, _, _, h4⟩ := flatten_subtree t f hm _ ih
    refine h4.subset (List.mem_cons_of_mem _ ?_)
    exact mem_flatten_of_mem_roots g _ (h1 ▸ hc)

/-- Every node of a matched flattening descends from one of the roots. -/
theorem mem_flatten_isDesc {T : Type} [Inhabited T] (t : IdTree T) :
    ∀ f : Forest, MatchesAux t f → ∀ j ∈ f.flatten, ∃ r ∈ f.roots, IsDesc t r j := by
  intro f
  induction f with
  | nil =>
    intro _ j hj
    simp [Forest.flatten] at hj
  | node i c s ihc ihs =>
    intro hm j hj
    obtain ⟨hi, hch, hpar, hmc, hms⟩ := (matchesAux_node t i c s).mp hm
    rw [Forest.flatten] at hj
    rw [Forest.roots]
    rcases List.mem_cons.mp hj with rfl | hj'
    · exact ⟨j, List.mem_cons_self _ _, IsDesc.refl j⟩
    · rcases List.mem_append.mp hj' with hjc | hjs
      · obtain ⟨r, hr, hdesc⟩ := ihc hmc j hjc
        refine ⟨i, List.mem_cons_self _ _, ?_⟩
        exact isDesc_trans (IsDesc.step (IsDesc.refl i) (hch ▸ hr)) hdesc
      · obtain ⟨r, hr, hdesc⟩ := ihs hms j hjs
        exact ⟨r, List.mem_cons_of_mem _ hr, hdesc⟩

/-- Preorder invariant on matched flattenings: a node is listed strictly
before each of its proper descendants. -/
theorem flatten_order {T : Type} [Inhabited T] (t : IdTree T) :
    ∀ f : Forest, MatchesAux t f → ∀ p ∈ f.flatten, ∀ k : Nat,
      IsDesc t p k → k ≠ p → [p, k].Sublist f.flatten := by
  intro f
  induction f with
  | nil =>
    intro _ p hp
    simp [Forest.flatten] at hp
  | node i c s ihc ihs =>
    intro hm p hp k hdesc hne
    obtain ⟨hi, hch, hpar, hmc, hms⟩ := (matchesAux_node t i c s).mp hm
    rw [Forest.flatten] at hp ⊢
    rcases List.mem_cons.mp hp with rfl | hp'
    · have hmsub : MatchesAux t (.node p c .nil) :=
        (matchesAux_node t p c .nil).mpr ⟨hi, hch, hpar, hmc, trivial⟩
      have hmem : k ∈ (Forest.node p c .nil).flatten :=
        isDesc_mem_flatten t _ hmsub hdesc
          (by rw [Forest.flatten]; exact List.mem_cons_self _ _)
      rw [Forest.flatten] at hmem
      rcases List.mem_cons.mp hmem with rfl | hk
      · exact absurd rfl hne
      · have hk' : k ∈ c.flatten := by simpa [Forest.flatten] using hk
        exact List.cons_sublist_cons.mpr
          (List.singleton_sublist.mpr (List.mem_append_left _ hk'))
    · rcases List.mem_append.mp hp' with hpc | hps
      · exact ((ihc hmc p hpc k hdesc hne).trans (List.sublist_append_left _ _)).cons i
      · exact ((ihs hms p hps k hdesc hne).trans (List.sublist_append_right _ _)).cons i

/-- Every non-root node of a matched flattening has a parent inside it whose
children list contains it. -/
theorem flatten_parent {T : Type} [Inhabited T] (t : IdTree T) :
    ∀ f : Forest, MatchesAux t f → ∀ j ∈ f.flatten,
      j ∈ f.roots ∨ ∃ q ∈ f.flatten, (t.getN j).parent = some q ∧ j ∈ (t.getN q).children := by
  intro f
  induction f with
  | nil =>
    intro _ j hj
    simp [Forest.flatten] at hj
  | node i c s ihc ihs =>
    intro hm j hj
    obtain ⟨hi, hch, hpar, hmc, hms⟩ := (matchesAux_node t i c s).mp hm
    rw [Forest.flatten] at hj
    rw [Forest.roots, Forest.flatten]
    rcases List.mem_cons.mp hj with rfl | hj'
    · exact Or.inl (List.mem_cons_self _ _)
    · rcases List.mem_append.mp hj' with hjc | hjs
      · rcases ihc hmc j hjc with hroot | ⟨q, hq, h1, h2⟩
        · refine Or.inr ⟨i, List.mem_cons_self _ _, hpar j hroot, ?_⟩
          rw [hch]
          exact hroot
        · exact Or.inr ⟨q, List.mem_cons_of_mem _ (List.mem_append_left _ hq), h1, h2⟩
      · rcases ihs hms j hjs with hroot | ⟨q, hq, h1, h2⟩
        · exact Or.inl (List.mem_cons_of_mem _ hroot)
        · exact Or.inr ⟨q, List.mem_cons_of_mem _ (List.mem_append_right _ hq), h1, h2⟩

/-- Under the no-duplicates assumption, no node of a matched flattening lists
itself among its own children. -/
theorem not_self_child {T : Type} [Inhabited T] (t : IdTree T) (f : Forest)
    (hm : MatchesAux t f) (hnd : f.flatten.Nodup) (j : Nat) (hj : j ∈ f.flatten) :
    j ∉ (t.getN j).children := by
  obtain ⟨g, h1, _, _, h4⟩ := flatten_subtree t f hm j hj
  have hnd2 : (j :: g.flatten).Nodup := h4.nodup hnd
  intro hmem
  rw [h1] at hmem
  exact (List.nodup_cons.mp hnd2).1 (mem_flatten_of_mem_roots g j hmem)

/-- C3: on a well-formed subtree rooted at `i`, `iter_descendants(i)` yields
`i` first, visits each subtree node exactly once and nothing else
(membership coincides with descendancy from `i`), and produces every visited
node strictly before any of its proper descendants — in particular every
visited node appears strictly after its parent. -/
theorem iter_descendants_order_spec {T : Type} [Inhabited T] (t : IdTree T)
    (i : Nat) (c : Forest) (h : WFSubtree t i c) :
    (t.iter_descendants i).head? = some i ∧
    (t.iter_descendants i).Nodup ∧
    (∀ j : Nat, j ∈ t.iter_descendants i ↔ IsDesc t i j) ∧
    (∀ p k : Nat, p ∈ t.iter_descendants i → IsDesc t p k → k ≠ p →
      [p, k].Sublist (t.iter_descendants i)) ∧
    (∀ j ∈ t.iter_descendants i, j ≠ i →
      ∃ q, (t.getN j).parent = some q ∧ [q, j].Sublist (t.iter_descendants i)) := by
  obtain ⟨hm, hnd, hb⟩ := h
  rw [iter_descendants_eq_flatten t i c ⟨hm, hnd, hb⟩]
  have hihead : i ∈ (Forest.node i c .nil).flatten := by
    rw [Forest.flatten]
    exact List.mem_cons_self _ _
  refine ⟨?_, hnd, ?_, ?_, ?_⟩
  · rw [Forest.flatten]
    rfl
  · intro j
    constructor
    · intro hj
      obtain ⟨r, hr, hdesc⟩ := mem_flatten_isDesc t _ hm j hj
      have : r = i := by simpa [Forest.roots] using hr
      exact this ▸ hdesc
    · intro hdesc
      exact isDesc_mem_flatten t _ hm hdesc hihead
  · intro p k hp hdesc hne
    exact flatten_order t _ hm p hp k hdesc hne
  · intro j hj hji
    rcases flatten_parent t _ hm j hj with hroot | ⟨q, hq, h1, h2⟩
    · have : j = i := by simpa [Forest.roots] using hroot
      exact absurd this hji
    · have hqj : j ≠ q := by
        intro he
        exact not_self_child t _ hm hnd j hj (he ▸ h2)
      exact ⟨q, h1, flatten_order t _ hm q hq j (IsDesc.step (IsDesc.refl q) h2) hqj⟩

/-- C7: for a node at depth `d` (along an acyclic parent chain short enough
for the arena, as on any well-formed tree), `iter_ancestors(id)` yields a
finite sequence starting at the node itself, of length depth + 1, whose last
element is the first parentless node on the chain (every earlier element has
a parent). -/
theorem iter_ancestors_spec {T : Type} [Inhabited T] (t : IdTree T) (i d : Nat)
    (h : IsDepth t i d) (hd : d < t.nodes.length) :
    (t.iter_ancestors i).length = d + 1 ∧
    (t.iter_ancestors i).head? = some i ∧
    (∃ r, (t.iter_ancestors i).getLast? = some r ∧ (t.getN r).parent = none) ∧
    (∀ j ∈ (t.iter_ancestors i).dropLast, (t.getN j).parent ≠ none) :=
  ancestorIds_spec h t.nodes.length hd

/-! Joint assignment: the size check and the round trip. -/

theorem set_joint_angle_error_eq {V P : Type} (l : Link V P) (a : ℚ) (e : JointError)
    (h : l.set_joint_angle a = .error e) : e = .OutOfLimit := by
  unfold Link.set_joint_angle at h
  split at h
  · split at h
    · split at h
      · exact Except.noConfusion h
      · injection h with h
        exact h.symm
    · exact Except.noConfusion h
  · injection h with h
    exact h.symm

theorem setAnglesList_no_size {V P : Type} [Monoid P] :
    ∀ (pairs : List (Nat × ℚ)) (tree : IdTree (Link V P)),
      (IdKinematicChain.setAnglesList tree pairs).2 ≠ some .SizeMisMatch := by
  intro pairs
  induction pairs with
  | nil =>
    intro tree h
    exact Option.noConfusion h
  | cons hd tl ih =>
    intro tree
    rw [IdKinematicChain.setAnglesList]
    cases he : (tree.getN hd.1).data.set_joint_angle hd.2 with
    | error e =>
      intro h
      have := set_joint_angle_error_eq _ _ _ he
      subst this
      exact JointError.noConfusion (Option.some.injEq _ _ ▸ h)
    | ok newLink => exact ih _

theorem setTreeAngles_no_size {V P : Type} [Monoid P] :
    ∀ (nodes : List (IdNode (Link V P))) (angles : List ℚ),
      (IdLinkTree.setTreeAngles nodes angles).2 ≠ some .SizeMisMatch := by
  intro nodes
  induction nodes with
  | nil =>
    intro angles h
    exact Option.noConfusion h
  | cons nd rest ih =>
    intro angles
    cases angles with
    | nil =>
      intro h
      exact Option.noConfusion h
    | cons a as' =>
      rw [IdLinkTree.setTreeAngles]
      by_cases hj : nd.data.has_joint_angle
      · rw [if_pos hj]
        cases he : nd.data.set_joint_angle a with
        | error e =>
          intro h
          have := set_joint_angle_error_eq _ _ _ he
          subst this
          exact JointError.noConfusion (Option.some.injEq _ _ ▸ h)
        | ok l' => exact ih as'
      · rw [if_neg hj]
        exact ih (a :: as')

/-- C2: for chains and for whole trees alike, `set_joint_angles` with an
input whose length differs from the number of non-Fixed joints returns
`SizeMisMatch` with the state completely unmodified (the length is checked
before any assignment, nothing is truncated or padded), and with a matching
length it never returns `SizeMisMatch` (per-joint failures are
`OutOfLimit`). -/
theorem set_joint_angles_size_spec {V P : Type} [Monoid P] :
    (∀ (c : IdKinematicChain V P) (angles : List ℚ),
      ((c.id_list.filter (fun id => (c.tree.getN id).data.has_joint_angle)).length
          ≠ angles.length →
        c.set_joint_angles angles = (c, some .SizeMisMatch)) ∧
      ((c.id_list.filter (fun id => (c.tree.getN id).data.has_joint_angle)).length
          = angles.length →
        (c.set_joint_angles angles).2 ≠ some .SizeMisMatch)) ∧
    (∀ (lt : IdLinkTree V P) (angles_vec : List ℚ),
      (angles_vec.length ≠ lt.dof →
        lt.set_joint_angles angles_vec = (lt, some .SizeMisMatch)) ∧
      (angles_vec.length = lt.dof →
        (lt.set_joint_angles angles_vec).2 ≠ some .SizeMisMatch)) := by
  constructor
  · intro c angles
    constructor
    · intro hne
      rw [IdKinematicChain.set_joint_angles, if_pos hne]
    · intro heq
      rw [IdKinematicChain.set_joint_angles, if_neg (by rw [heq]; exact fun h => h rfl)]
      exact setAnglesList_no_size _ _
  · intro lt angles_vec
    constructor
    · intro hne
      rw [IdLinkTree.set_joint_angles, if_pos hne]
    · intro heq
      rw [IdLinkTree.set_joint_angles, if_neg (by rw [heq]; exact fun h => h rfl)]
      exact setTreeAngles_no_size _ _

theorem cacheOnly_refl {V P : Type} [Monoid P] (t : IdTree (Link V P)) : CacheOnly t t :=
  ⟨rfl, fun _ => ⟨rfl, rfl, rfl, rfl, rfl, rfl, rfl⟩⟩

theorem cacheOnly_calc_transform {V P : Type} [Monoid P] {t u : IdTree (Link V P)}
    (h : CacheOnly t u) (jt : JointType V → ℚ → P) (j : Nat) :
    (u.getN j).data.calc_transform jt = (t.getN j).data.calc_transform jt := by
  obtain ⟨-, -, -, -, -, htr, hj⟩ := (h.2 j)
  rw [Link.calc_transform, Link.calc_transform, htr, hj]

theorem cacheOnly_has_joint_angle {V P : Type} [Monoid P] {t u : IdTree (Link V P)}
    (h : CacheOnly t u) (j : Nat) :
    (u.getN j).data.has_joint_angle = (t.getN j).data.has_joint_angle := by
  obtain ⟨-, -, -, -, -, -, hj⟩ := (h.2 j)
  rw [Link.has_joint_angle, Link.has_joint_angle, hj]

theorem zip_self_map {α β : Type} (f : α → β) :
    ∀ l : List α, l.zip (l.map f) = l.map (fun x => (x, f x)) := by
  intro l
  induction l with
  | nil => rfl
  | cons x xs ih => simp [ih]

theorem filterMap_get_joint_angle {V P : Type} [Monoid P]
    (tree : IdTree (Link V P)) :
    ∀ l : List Nat,
      l.filterMap (fun id => (tree.getN id).data.get_joint_angle)
        = (l.filter (fun id => (tree.getN id).data.has_joint_angle)).map
            (fun id => (tree.getN id).data.joint.angle) := by
  intro l
  induction l with
  | nil => rfl
  | cons x xs ih =>
    rw [List.filterMap_cons, List.filter_cons]
    by_cases hx : (tree.getN x).data.has_joint_angle
    · rw [Link.get_joint_angle, if_pos hx, if_pos hx, List.map_cons, ih]
    · rw [Link.get_joint_angle, if_neg hx, if_neg (by simpa using hx), ih]

/-- Re-assigning a settable joint its own current angle succeeds whenever
that angle satisfies the configured limits, and only clears the world
transform cache. -/
theorem set_joint_angle_self {V P : Type} (l : Link V P)
    (hj : l.has_joint_angle)
    (hlim : ∀ r, l.joint.limits = some r → r.1 ≤ l.joint.angle ∧ l.joint.angle ≤ r.2) :
    l.set_joint_angle l.joint.angle = .ok { l with world_transform_cache := none } := by
  unfold Link.set_joint_angle
  rw [if_pos hj]
  cases hl : l.joint.limits with
  | none => rfl
  | some r =>
    dsimp only
    rw [if_pos (hlim r hl)]

/-- The chain-level assignment loop, fed each settable link's own current
angle, succeeds and changes at most the caches. -/
theorem setAnglesList_roundtrip {V P : Type} [Monoid P] (t : IdTree (Link V P)) :
    ∀ (ids : List Nat) (u : IdTree (Link V P)), CacheOnly t u →
      (∀ id ∈ ids, id < t.nodes.length) →
      (∀ id ∈ ids, (t.getN id).data.has_joint_angle) →
      (∀ id ∈ ids, ∀ r, (t.getN id).data.joint.limits = some r →
        r.1 ≤ (t.getN id).data.joint.angle ∧ (t.getN id).data.joint.angle ≤ r.2) →
      (IdKinematicChain.setAnglesList u
          (ids.map (fun id => (id, (t.getN id).data.joint.angle)))).2 = none ∧
      CacheOnly t (IdKinematicChain.setAnglesList u
          (ids.map (fun id => (id, (t.getN id).data.joint.angle)))).1 := by
  intro ids
  induction ids with
  | nil =>
    intro u hco _ _ _
    exact ⟨rfl, hco⟩
  | cons id rest ih =>
    intro u hco hv hhas hlim
    obtain ⟨hlen, hfields⟩ := hco
    have hjoint : (u.getN id).data.joint = (t.getN id).data.joint := (hfields id).2.2.2.2.2.2
    have hset : (u.getN id).data.set_joint_angle ((t.getN id).data.joint.angle)
        = .ok { name := (u.getN id).data.name, transform := (u.getN id).data.transform,
                joint := (t.getN id).data.joint, world_transform_cache := none } := by
      have h0 := set_joint_angle_self (u.getN id).data
        (by rw [cacheOnly_has_joint_angle ⟨hlen, hfields⟩ id]
            exact hhas id (List.mem_cons_self _ _))
        (by rw [hjoint]
            exact hlim id (List.mem_cons_self _ _))
      rw [hjoint] at h0
      exact h0
    rw [List.map_cons, IdKinematicChain.setAnglesList, hset]
    apply ih
    · -- the modified tree still only differs from `t` in caches
      refine ⟨by rw [IdTree.length_modifyNode]; exact hlen, fun j => ?_⟩
      by_cases hji : id = j
      · subst hji
        by_cases hin : id < u.nodes.length
        · rw [IdTree.getN_modifyNode_self _ _ _ hin]
          obtain ⟨f1, f2, f3, f4, f5, f6, f7⟩ := hfields id
          exact ⟨f1, f2, f3, f4, f5, f6, rfl⟩
        · rw [IdTree.getN_modifyNode, if_neg (fun hx => hin hx.2)]
          exact (hfields id)
      · rw [IdTree.getN_modifyNode_other _ _ _ _ hji]
        exact (hfields j)
    · exact fun x hx => hv x (List.mem_cons_of_mem _ hx)
    · exact fun x hx => hhas x (List.mem_cons_of_mem _ hx)
    · exact fun x hx => hlim x (List.mem_cons_of_mem _ hx)

/-- Chains over cache-equivalent trees compute the same end transform. -/
theorem calcEndAux_cacheOnly {V P : Type} [Monoid P] {t u : IdTree (Link V P)}
    (h : CacheOnly t u) (jt : JointType V → ℚ → P) (endName : Option String) :
    ∀ (ids : List Nat) (acc : P),
      IdKinematicChain.calcEndAux jt u endName ids acc
        = IdKinematicChain.calcEndAux jt t endName ids acc := by
  intro ids
  induction ids with
  | nil => intro acc; rfl
  | cons id rest ih =>
    intro acc
    simp only [IdKinematicChain.calcEndAux]
    rw [cacheOnly_calc_transform h jt id]
    cases endName with
    | none => exact ih _
    | some nm =>
      dsimp only
      rw [(h.2 id).2.2.2.2.1]
      by_cases hnm : nm = (t.getN id).data.name
      · rw [if_pos hnm, if_pos hnm]
      · rw [if_neg hnm, if_neg hnm]
        exact ih _

/-- C4: a chain whose current angles all satisfy their configured limits
round-trips: `set_joint_angles (get_joint_angles ())` succeeds and the end
transform computed afterwards equals the one computed before. -/
theorem set_get_joint_angles_roundtrip {V P : Type} [Monoid P]
    (jt : JointType V → ℚ → P) (c : IdKinematicChain V P)
    (hv : ∀ id ∈ c.id_list, id < c.tree.nodes.length)
    (hlim : ∀ id ∈ c.id_list, (c.tree.getN id).data.has_joint_angle →
      ∀ r, (c.tree.getN id).data.joint.limits = some r →
        r.1 ≤ (c.tree.getN id).data.joint.angle ∧ (c.tree.getN id).data.joint.angle ≤ r.2) :
    (c.set_joint_angles c.get_joint_angles).2 = none ∧
    (c.set_joint_angles c.get_joint_angles).1.calc_end_transform jt
      = c.calc_end_transform jt := by
  have hangles : c.get_joint_angles
      = (c.id_list.filter (fun id => (c.tree.getN id).data.has_joint_angle)).map
          (fun id => (c.tree.getN id).data.joint.angle) :=
    filterMap_get_joint_angle c.tree c.id_list
  have hlen : (c.id_list.filter (fun id => (c.tree.getN id).data.has_joint_angle)).length
      = c.get_joint_angles.length := by
    rw [hangles, List.length_map]
  have hrt := setAnglesList_roundtrip c.tree
    (c.id_list.filter (fun id => (c.tree.getN id).data.has_joint_angle))
    c.tree (cacheOnly_refl c.tree)
    (fun id hid => hv id (List.mem_of_mem_filter hid))
    (fun id hid => by simpa using (List.mem_filter.mp hid).2)
    (fun id hid => hlim id (List.mem_of_mem_filter hid)
      (by simpa using (List.mem_filter.mp hid).2))
  rw [IdKinematicChain.set_joint_angles, if_neg (by rw [hlen]; exact fun h => h rfl)]
  have hzip : (c.id_list.filter (fun id => (c.tree.getN id).data.has_joint_angle)).zip
        c.get_joint_angles
      = (c.id_list.filter (fun id => (c.tree.getN id).data.has_joint_angle)).map
          (fun id => (id, (c.tree.getN id).data.joint.angle)) := by
    rw [hangles]
    exact zip_self_map _ _
  rw [hzip]
  refine ⟨hrt.1, ?_⟩
  exact calcEndAux_cacheOnly hrt.2 jt c.end_link_name c.id_list c.transform

/-! Chain construction and the end transform (refinement). -/

theorem calcEndAux_none_eq_foldl {V P : Type} [Monoid P] (jt : JointType V → ℚ → P)
    (tree : IdTree (Link V P)) :
    ∀ (ids : List Nat) (acc : P),
      IdKinematicChain.calcEndAux jt tree none ids acc
        = ids.foldl (fun a id => a * ((tree.getN id).data.calc_transform jt)) acc := by
  intro ids
  induction ids with
  | nil => intro acc; rfl
  | cons id rest ih =>
    intro acc
    simp only [IdKinematicChain.calcEndAux, List.foldl_cons]
    exact ih _

theorem chainScan_length {V P : Type} [Monoid P] (jt : JointType V → ℚ → P)
    (tree : IdTree (Link V P)) :
    ∀ (ids : List Nat) (acc : P),
      (IdKinematicChain.chainScan jt tree ids acc).length = ids.length := by
  intro ids
  induction ids with
  | nil => intro acc; rfl
  | cons id rest ih =>
    intro acc
    simp only [IdKinematicChain.chainScan, List.length_cons, ih]

theorem chainScan_getLast {V P : Type} [Monoid P] (jt : JointType V → ℚ → P)
    (tree : IdTree (Link V P)) :
    ∀ (ids : List Nat) (acc : P), ids ≠ [] →
      (IdKinematicChain.chainScan jt tree ids acc).getLast?
        = some (ids.foldl (fun a id => a * ((tree.getN id).data.calc_transform jt)) acc) := by
  intro ids
  induction ids with
  | nil => intro acc h; exact absurd rfl h
  | cons id rest ih =>
    intro acc _
    cases rest with
    | nil => rfl
    | cons id2 rest2 =>
      simp only [IdKinematicChain.chainScan, List.foldl_cons]
      rw [getLast?_cons_of_getLast?]
      exact ih _ (by simp)

/-- C10: a chain built by `IdKinematicChain::new` (hence also every chain
produced by `chain_from_end_link_name`) has no configured end link name, so
`calc_end_transform` never returns early: it always folds the base transform
through every link of the id list, on a nonempty id list it equals the last
entry of `calc_link_transforms`, and on an empty id list it is the base
transform unchanged. -/
theorem new_chain_end_transform_spec {V P : Type} [Monoid P]
    (jt : JointType V → ℚ → P) (name : String) (tree : IdTree (Link V P))
    (id_list : List Nat) :
    (IdKinematicChain.new name tree id_list).end_link_name = none ∧
    (IdKinematicChain.new name tree id_list).calc_end_transform jt
      = id_list.foldl (fun a id => a * ((tree.getN id).data.calc_transform jt))
          (IdKinematicChain.new name tree id_list).transform ∧
    (id_list = [] →
      (IdKinematicChain.new name tree id_list).calc_end_transform jt
        = (IdKinematicChain.new name tree id_list).transform) ∧
    (id_list ≠ [] →
      ((IdKinematicChain.new name tree id_list).calc_link_transforms jt).getLast?
        = some ((IdKinematicChain.new name tree id_list).calc_end_transform jt)) ∧
    (∀ (lt : IdLinkTree V P) (nm : String) (ch : IdKinematicChain V P),
      lt.chain_from_end_link_name nm = some ch → ch.end_link_name = none) := by
  refine ⟨rfl, ?_, ?_, ?_, ?_⟩
  · exact calcEndAux_none_eq_foldl jt tree id_list _
  · intro h
    subst h
    rfl
  · intro h
    rw [IdKinematicChain.calc_link_transforms, IdKinematicChain.calc_end_transform]
    simp only [IdKinematicChain.new]
    rw [chainScan_getLast jt tree id_list _ h,
      calcEndAux_none_eq_foldl jt tree id_list _]
  · intro lt nm ch h
    rw [IdLinkTree.chain_from_end_link_name] at h
    cases hf : lt.tree.nodes.find? (fun nd => nd.data.name = nm) with
    | none =>
      rw [hf] at h
      exact Option.noConfusion h
    | some nd =>
      rw [hf] at h
      have := Option.some.injEq _ _ ▸ h
      rw [← this]
      rfl

/-! The IK solver loop (spec-modelled). -/

/-- The solver loop, run on states that fail the tolerance test at every
checked iterate, exhausts its budget, fails with `NotConverged` and leaves
the state at the last attempted value `step^[n] s`. -/
theorem solveLoop_not_converged {S : Type} (errT errR : S → ℚ) (step : S → S)
    (tolT tolR : ℚ) :
    ∀ (n : Nat) (s : S),
      (∀ k, k < n → ¬(errT (step^[k] s) < tolT ∧ errR (step^[k] s) < tolR)) →
      JacobianIKSolver.solveLoop errT errR step tolT tolR n s
        = (step^[n] s, some .NotConverged) := by
  intro n
  induction n with
  | zero => intro s _; rfl
  | succ n ih =>
    intro s h
    have h0 : ¬(errT s < tolT ∧ errR s < tolR) := h 0 (Nat.succ_pos n)
    rw [JacobianIKSolver.solveLoop, if_neg h0]
    have hrec := ih (step s) (fun k hk => by
      have := h (k + 1) (by omega)
      rw [Function.iterate_succ_apply] at this
      exact this)
    rw [hrec, Function.iterate_succ_apply]

/-- C5: whenever the iteration budget is reached before both error norms
pass their tolerances (every checked iterate fails the test), `solve` fails
with the not-converged error — never success — and the chain state is left
at its last attempted value, not restored. -/
theorem solve_not_converged_spec {S : Type} (cfg : JacobianIKSolver)
    (errT errR : S → ℚ) (step : S → S) (s : S)
    (h : ∀ k, k < cfg.num_max_try →
      ¬(errT (step^[k] s) < cfg.allowable_target_distance ∧
        errR (step^[k] s) < cfg.allowable_target_angle)) :
    cfg.solve errT errR step s = (step^[cfg.num_max_try] s, some .NotConverged) :=
  solveLoop_not_converged errT errR step _ _ cfg.num_max_try s h

/-! Chain extraction by end link name. -/

/-- C8: `chain_from_end_link_name` returns nothing exactly when no link has
the requested name; otherwise it returns a chain whose id list is the
ancestor chain of the first matching node (creation order), reversed into
root-to-leaf order: the matching node's id is last, the first id is a
parentless node (the root), and the list spans depth + 1 nodes. -/
theorem chain_from_end_link_name_spec {V P : Type} [Monoid P]
    (lt : IdLinkTree V P) (nm : String) :
    (lt.chain_from_end_link_name nm = none ↔
      ∀ nd ∈ lt.tree.nodes, ¬(nd.data.name = nm)) ∧
    (∀ nd : IdNode (Link V P),
      lt.tree.nodes.find? (fun nd => nd.data.name = nm) = some nd →
      ∀ d : Nat, IsDepth lt.tree nd.id d → d < lt.tree.nodes.length →
        ∃ ch : IdKinematicChain V P,
          lt.chain_from_end_link_name nm = some ch ∧
          ch.id_list = (lt.tree.iter_ancestors nd.id).reverse ∧
          ch.id_list.getLast? = some nd.id ∧
          (∃ r, ch.id_list.head? = some r ∧ (lt.tree.getN r).parent = none) ∧
          ch.id_list.length = d + 1) := by
  constructor
  · rw [IdLinkTree.chain_from_end_link_name]
    cases hf : lt.tree.nodes.find? (fun nd => nd.data.name = nm) with
    | none =>
      simp only [iff_true_intro rfl, true_iff]
      have := List.find?_eq_none.mp hf
      intro nd hnd hname
      exact this nd hnd (by simpa using hname)
    | some nd =>
      constructor
      · intro h
        exact Option.noConfusion h
      · intro hall
        exfalso
        have h1 : nd.data.name = nm := by simpa using List.find?_some hf
        have h2 : nd ∈ lt.tree.nodes := List.mem_of_find?_eq_some hf
        exact hall nd h2 h1
  · intro nd hf d hdep hdn
    obtain ⟨hlen, hhead, ⟨r, hlast, hr⟩, -⟩ := iter_ancestors_spec lt.tree nd.id d hdep hdn
    refine ⟨IdKinematicChain.new nm lt.tree ((lt.tree.iter_ancestors nd.id).reverse),
      ?_, rfl, ?_, ⟨r, ?_, hr⟩, ?_⟩
    · rw [IdLinkTree.chain_from_end_link_name, hf]
    · simp only [IdKinematicChain.new]
      rw [List.getLast?_reverse]
      exact hhead
    · simp only [IdKinematicChain.new]
      rw [List.head?_reverse]
      exact hlast
    · simp only [IdKinematicChain.new]
      rw [List.length_reverse]
      exact hlen

/-! Root transform placement. -/

/-- C9 (amended): `set_root_transform` writes the pose into the local
transform of the node with id 0 — the root only when the root was created
first — and changes nothing else: the rest of node 0's link data and links,
every other node, the node count and the tree name are untouched. -/
theorem set_root_transform_spec {V P : Type} [Monoid P] (lt : IdLinkTree V P)
    (tf : P) (h0 : 0 < lt.tree.nodes.length) :
    ((lt.set_root_transform tf).tree.getN 0).data.transform = tf ∧
    ((lt.set_root_transform tf).tree.getN 0).data.name = (lt.tree.getN 0).data.name ∧
    ((lt.set_root_transform tf).tree.getN 0).data.joint = (lt.tree.getN 0).data.joint ∧
    ((lt.set_root_transform tf).tree.getN 0).data.world_transform_cache
      = (lt.tree.getN 0).data.world_transform_cache ∧
    ((lt.set_root_transform tf).tree.getN 0).parent = (lt.tree.getN 0).parent ∧
    ((lt.set_root_transform tf).tree.getN 0).children = (lt.tree.getN 0).children ∧
    ((lt.set_root_transform tf).tree.getN 0).id = (lt.tree.getN 0).id ∧
    (∀ j : Nat, j ≠ 0 → (lt.set_root_transform tf).tree.getN j = lt.tree.getN j) ∧
    (lt.set_root_transform tf).tree.nodes.length = lt.tree.nodes.length ∧
    (lt.set_root_transform tf).name = lt.name := by
  have hself := IdTree.getN_modifyNode_self lt.tree 0
    (fun nd => { nd with data := { nd.data with transform := tf } }) h0
  refine ⟨?_, ?_, ?_, ?_, ?_, ?_, ?_, ?_, ?_, rfl⟩
  · rw [IdLinkTree.set_root_transform] at *
    rw [hself]
  · rw [IdLinkTree.set_root_transform] at *
    rw [hself]
  · rw [IdLinkTree.set_root_transform] at *
    rw [hself]
  · rw [IdLinkTree.set_root_transform] at *
    rw [hself]
  · rw [IdLinkTree.set_root_transform] at *
    rw [hself]
  · rw [IdLinkTree.set_root_transform] at *
    rw [hself]
  · rw [IdLinkTree.set_root_transform] at *
    rw [hself]
  · intro j hj
    rw [IdLinkTree.set_root_transform]
    exact IdTree.getN_modifyNode_other lt.tree 0 j _ (fun h => hj h.symm)
  · rw [IdLinkTree.set_root_transform]
    exact IdTree.length_modifyNode lt.tree 0 _

/-! Whole-tree forward kinematics. -/

/-- Every node of a matched forest whose roots sit at depth `d0` has a depth,
bounded by `d0` plus the subtree size. -/
theorem flatten_depth_bound {T : Type} [Inhabited T] (t : IdTree T) :
    ∀ f : Forest, MatchesAux t f → ∀ d0 : Nat, (∀ r ∈ f.roots, IsDepth t r d0) →
      ∀ j ∈ f.flatten, ∃ d, IsDepth t j d ∧ d < d0 + f.flatten.length := by
  intro f
  induction f with
  | nil =>
    intro _ d0 _ j hj
    simp [Forest.flatten] at hj
  | node i c s ihc ihs =>
    intro hm d0 hroots j hj
    obtain ⟨hi, hch, hpar, hmc, hms⟩ := (matchesAux_node t i c s).mp hm
    rw [Forest.flatten] at hj ⊢
    have hlen : (i :: (c.flatten ++ s.flatten)).length
        = 1 + c.flatten.length + s.flatten.length := by
      simp [List.length_append]
      omega
    rcases List.mem_cons.mp hj with rfl | hj'
    · refine ⟨d0, hroots j (by rw [Forest.roots]; exact List.mem_cons_self _ _), ?_⟩
      rw [hlen]
      omega
    · have hdi : IsDepth t i d0 :=
        hroots i (by rw [Forest.roots]; exact List.mem_cons_self _ _)
      rcases List.mem_append.mp hj' with hjc | hjs
      · obtain ⟨d, hd, hdb⟩ := ihc hmc (d0 + 1)
          (fun r hr => IsDepth.step (hpar r hr) hdi) j hjc
        refine ⟨d, hd, ?_⟩
        rw [hlen]
        omega
      · obtain ⟨d, hd, hdb⟩ := ihs hms d0
          (fun r hr => hroots r (by rw [Forest.roots]; exact List.mem_cons_of_mem _ hr)) j hjs
        refine ⟨d, hd, ?_⟩
        rw [hlen]
        omega

theorem pathProd_root {V P : Type} [Monoid P] (jt : JointType V → ℚ → P)
    {t : IdTree (Link V P)} {j : Nat} (hpar : (t.getN j).parent = none) :
    ∀ n, pathProd jt t n j = (t.getN j).data.calc_transform jt := by
  intro n
  cases n with
  | zero => rfl
  | succ m => rw [pathProd, hpar]

theorem pathProd_succ_some {V P : Type} [Monoid P] (jt : JointType V → ℚ → P)
    {t : IdTree (Link V P)} {j p : Nat} (hpar : (t.getN j).parent = some p)
    (fuel : Nat) :
    pathProd jt t (fuel + 1) j
      = pathProd jt t fuel p * ((t.getN j).data.calc_transform jt) := by
  rw [pathProd, hpar]

theorem pathProd_stable {V P : Type} [Monoid P] (jt : JointType V → ℚ → P)
    {t : IdTree (Link V P)} {j d : Nat} (h : IsDepth t j d) :
    ∀ fuel, d ≤ fuel → pathProd jt t fuel j = pathProd jt t d j := by
  induction h with
  | @root i hpar =>
    intro fuel _
    rw [pathProd_root jt hpar fuel, pathProd_root jt hpar 0]
  | @step i p d hpar _ ih =>
    intro fuel hf
    match fuel, hf with
    | f + 1, _ =>
      rw [pathProd_succ_some jt hpar f, pathProd_succ_some jt hpar d, ih f (by omega)]

/-- The one-step path product recurrence: with enough fuel, a node's path
product is its parent's path product times its own local transform. -/
theorem pathProd_parent {V P : Type} [Monoid P] (jt : JointType V → ℚ → P)
    {t : IdTree (Link V P)} {j p d n : Nat}
    (hpar : (t.getN j).parent = some p) (hdep : IsDepth t p d) (hdn : d < n) :
    pathProd jt t n j = pathProd jt t n p * ((t.getN j).data.calc_transform jt) := by
  match n, hdn with
  | m + 1, _ =>
    rw [pathProd_succ_some jt hpar m, pathProd_stable jt hdep m (by omega),
      pathProd_stable jt hdep (m + 1) (by omega)]

theorem nodup_not_mem_left {α : Type} (done rest : List α) (k : α)
    (h : (done ++ k :: rest).Nodup) : k ∉ done := by
  rw [List.nodup_append] at h
  intro hk
  exact h.2.2 hk (List.mem_cons_self _ _)

/-- In a duplicate-free list split as `done ++ k :: rest`, anything listed
strictly before `k` lies in `done`. -/
theorem sublist_pair_mem_left {α : Type} (p k : α) :
    ∀ (done rest : List α), [p, k].Sublist (done ++ k :: rest) →
      (done ++ k :: rest).Nodup → p ∈ done := by
  intro done
  induction done with
  | nil =>
    intro rest hsub hnd
    exfalso
    rw [List.nil_append] at hsub hnd
    cases hsub with
    | cons _ h' =>
      exact (List.nodup_cons.mp hnd).1 (h'.subset (by simp))
    | cons₂ _ h' =>
      exact (List.nodup_cons.mp hnd).1 (List.singleton_sublist.mp h')
  | cons d ds ih =>
    intro rest hsub hnd
    rw [List.cons_append] at hsub hnd
    cases hsub with
    | cons _ h' =>
      exact List.mem_cons_of_mem _ (ih rest h' (List.nodup_cons.mp hnd).2)
    | cons₂ _ h' =>
      exact List.mem_cons_self _ _

theorem parentCacheT_none {V P : Type} [Monoid P] {u : IdTree (Link V P)} {id : Nat}
    (hpar : (u.getN id).parent = none) : IdLinkTree.parentCacheT u id = 1 := by
  unfold IdLinkTree.parentCacheT
  rw [hpar]

theorem parentCacheT_some {V P : Type} [Monoid P] {u : IdTree (Link V P)}
    {id p : Nat} {w : P} (hpar : (u.getN id).parent = some p)
    (hc : (u.getN p).data.world_transform_cache = some w) :
    IdLinkTree.parentCacheT u id = w := by
  unfold IdLinkTree.parentCacheT
  rw [hpar]
  show (match (u.getN p).data.world_transform_cache with
    | some c => c
    | none => (1 : P)) = w
  rw [hc]

/-- Invariant of the whole-tree FK fold: processing the remaining visit list
(with the already-visited prefix's caches holding their path products) yields
the path products of the remaining nodes in order, changes only caches, and
ends with every visited node's cache holding its path product. -/
theorem fkFold_go {V P : Type} [Monoid P] (jt : JointType V → ℚ → P)
    (t : IdTree (Link V P)) (L : List Nat)
    (hnd : L.Nodup)
    (hval : ∀ j ∈ L, j < t.nodes.length)
    (hdep : ∀ j ∈ L, ∀ q, (t.getN j).parent = some q →
      ∃ d, IsDepth t q d ∧ d < t.nodes.length)
    (hord : ∀ j ∈ L, ∀ q, (t.getN j).parent = some q → [q, j].Sublist L) :
    ∀ (rem done : List Nat), L = done ++ rem →
      ∀ u : IdTree (Link V P), CacheOnly t u →
        (∀ j ∈ done, (u.getN j).data.world_transform_cache
            = some (pathProd jt t t.nodes.length j)) →
        (IdLinkTree.fkFold jt u rem).2 = rem.map (pathProd jt t t.nodes.length) ∧
        CacheOnly t (IdLinkTree.fkFold jt u rem).1 ∧
        (∀ j ∈ L, ((IdLinkTree.fkFold jt u rem).1.getN j).data.world_transform_cache
            = some (pathProd jt t t.nodes.length j)) := by
  intro rem
  induction rem with
  | nil =>
    intro done heq u hco hcaches
    refine ⟨rfl, hco, ?_⟩
    intro j hj
    rw [heq, List.append_nil] at hj
    exact hcaches j hj
  | cons id rem' ih =>
    intro done heq u hco hcaches
    have hidL : id ∈ L := by
      rw [heq]
      exact List.mem_append_right _ (List.mem_cons_self _ _)
    have hin : id < u.nodes.length := by
      rw [hco.1]
      exact hval id hidL
    have hidnotdone : id ∉ done := nodup_not_mem_left done rem' id (heq ▸ hnd)
    have hloc := cacheOnly_calc_transform hco jt id
    simp only [IdLinkTree.fkFold]
    rw [hloc]
    cases hpar : (t.getN id).parent with
    | none =>
      have hpu : (u.getN id).parent = none := by rw [(hco.2 id).1, hpar]
      rw [parentCacheT_none hpu, one_mul, ← pathProd_root jt hpar t.nodes.length]
      have hco' : CacheOnly t (u.modifyNode id (fun nd =>
          { nd with data := { nd.data with
            world_transform_cache := some (pathProd jt t t.nodes.length id) } })) := by
        refine ⟨by rw [IdTree.length_modifyNode]; exact hco.1, fun j => ?_⟩
        by_cases hji : id = j
        · subst hji
          rw [IdTree.getN_modifyNode_self _ _ _ hin]
          obtain ⟨f1, f2, f3, f4, f5, f6, f7⟩ := hco.2 id
          exact ⟨f1, f2, f3, f4, f5, f6, f7⟩
        · rw [IdTree.getN_modifyNode_other _ _ _ _ hji]
          exact hco.2 j
      have hcaches' : ∀ j ∈ done ++ [id],
          ((u.modifyNode id (fun nd =>
            { nd with data := { nd.data with
              world_transform_cache := some (pathProd jt t t.nodes.length id) } })).getN j
            ).data.world_transform_cache
            = some (pathProd jt t t.nodes.length j) := by
        intro j hj
        rcases List.mem_append.mp hj with hjd | hjid
        · rw [IdTree.getN_modifyNode_other _ _ _ _
            (fun he => hidnotdone (by rw [he]; exact hjd))]
          exact hcaches j hjd
        · have : j = id := by simpa using hjid
          subst this
          rw [IdTree.getN_modifyNode_self _ _ _ hin]
      obtain ⟨ih1, ih2, ih3⟩ := ih (done ++ [id])
        (by rw [heq, List.append_assoc]; rfl) _ hco' hcaches'
      refine ⟨?_, ih2, ih3⟩
      rw [ih1, List.map_cons]
    | some p =>
      have hpu : (u.getN id).parent = some p := by rw [(hco.2 id).1, hpar]
      have hpdone : p ∈ done :=
        sublist_pair_mem_left p id done rem' (heq ▸ hord id hidL p hpar) (heq ▸ hnd)
      rw [parentCacheT_some hpu (hcaches p hpdone)]
      obtain ⟨d, hd, hdn⟩ := hdep id hidL p hpar
      rw [← pathProd_parent jt hpar hd hdn]
      have hco' : CacheOnly t (u.modifyNode id (fun nd =>
          { nd with data := { nd.data with
            world_transform_cache := some (pathProd jt t t.nodes.length id) } })) := by
        refine ⟨by rw [IdTree.length_modifyNode]; exact hco.1, fun j => ?_⟩
        by_cases hji : id = j
        · subst hji
          rw [IdTree.getN_modifyNode_self _ _ _ hin]
          obtain ⟨f1, f2, f3, f4, f5, f6, f7⟩ := hco.2 id
          exact ⟨f1, f2, f3, f4, f5, f6, f7⟩
        · rw [IdTree.getN_modifyNode_other _ _ _ _ hji]
          exact hco.2 j
      have hcaches' : ∀ j ∈ done ++ [id],
          ((u.modifyNode id (fun nd =>
            { nd with data := { nd.data with
              world_transform_cache := some (pathProd jt t t.nodes.length id) } })).getN j
            ).data.world_transform_cache
            = some (pathProd jt t t.nodes.length j) := by
        intro j hj
        rcases List.mem_append.mp hj with hjd | hjid
        · rw [IdTree.getN_modifyNode_other _ _ _ _
            (fun he => hidnotdone (by rw [he]; exact hjd))]
          exact hcaches j hjd
        · have : j = id := by simpa using hjid
          subst this
          rw [IdTree.getN_modifyNode_self _ _ _ hin]
      obtain ⟨ih1, ih2, ih3⟩ := ih (done ++ [id])
        (by rw [heq, List.append_assoc]; rfl) _ hco' hcaches'
      refine ⟨?_, ih2, ih3⟩
      rw [ih1, List.map_cons]

theorem nodup_length_eq (l : List Nat) (n : Nat) (hn : l.Nodup)
    (hb : ∀ x ∈ l, x < n) (hall : ∀ x, x < n → x ∈ l) : l.length = n := by
  have h1 : l.toFinset = Finset.range n := by
    apply Finset.Subset.antisymm
    · exact fun y hy => Finset.mem_range.mpr (hb y (List.mem_toFinset.mp hy))
    · exact fun y hy => List.mem_toFinset.mpr (hall y (Finset.mem_range.mp hy))
  have h2 := congrArg Finset.card h1
  rw [List.toFinset_card_of_nodup hn, Finset.card_range] at h2
  exact h2

/-- C1 (amended to the hardwired `NodeId(0)` start): on a well-formed tree
whose root is node 0 and whose nodes are exactly the subtree of node 0,
`calc_link_transforms` returns one pose per node, in `iter_descendants`
order starting from the root; each returned pose is the composition of the
local link transforms along the root-to-node path (equivalently, the
parent's freshly cached world transform times the node's local transform,
identity parent transform for the root), and that pose is stored in the
node's world transform cache. -/
theorem calc_link_transforms_tree_spec {V P : Type} [Monoid P]
    (jt : JointType V → ℚ → P) (lt : IdLinkTree V P) (c : Forest)
    (hwf : WFSubtree lt.tree 0 c)
    (hroot : (lt.tree.getN 0).parent = none)
    (hcov : ∀ j, j < lt.tree.nodes.length → j ∈ (Forest.node 0 c .nil).flatten) :
    (lt.calc_link_transforms jt).2
      = (lt.tree.iter_descendants 0).map (pathProd jt lt.tree lt.tree.nodes.length) ∧
    (lt.calc_link_transforms jt).2.length = lt.tree.nodes.length ∧
    (lt.tree.iter_descendants 0).head? = some 0 ∧
    (∀ j ∈ lt.tree.iter_descendants 0,
      ((lt.calc_link_transforms jt).1.tree.getN j).data.world_transform_cache
        = some (pathProd jt lt.tree lt.tree.nodes.length j)) ∧
    (∀ j ∈ lt.tree.iter_descendants 0, (lt.tree.getN j).parent = none →
      pathProd jt lt.tree lt.tree.nodes.length j
        = (lt.tree.getN j).data.calc_transform jt) ∧
    (∀ j ∈ lt.tree.iter_descendants 0, ∀ p, (lt.tree.getN j).parent = some p →
      pathProd jt lt.tree lt.tree.nodes.length j
        = pathProd jt lt.tree lt.tree.nodes.length p
            * ((lt.tree.getN j).data.calc_transform jt)) := by
  obtain ⟨hm, hnd, hb⟩ := hwf
  have hflat := iter_descendants_eq_flatten lt.tree 0 c ⟨hm, hnd, hb⟩
  obtain ⟨hhead, hndL, hmemiff, hordall, hparL⟩ :=
    iter_descendants_order_spec lt.tree 0 c ⟨hm, hnd, hb⟩
  have hlenle : (Forest.node 0 c .nil).flatten.length ≤ lt.tree.nodes.length :=
    nodup_length_le _ _ hnd hb
  have hdepth : ∀ j ∈ (Forest.node 0 c .nil).flatten,
      ∃ d, IsDepth lt.tree j d ∧ d < lt.tree.nodes.length := by
    intro j hj
    obtain ⟨d, hd, hdb⟩ := flatten_depth_bound lt.tree _ hm 0
      (fun r hr => by
        have hr0 : r = 0 := by simpa [Forest.roots] using hr
        subst hr0
        exact IsDepth.root hroot) j hj
    exact ⟨d, hd, by omega⟩
  have hval : ∀ j ∈ lt.tree.iter_descendants 0, j < lt.tree.nodes.length := by
    intro j hj
    rw [hflat] at hj
    exact hb j hj
  have hdep : ∀ j ∈ lt.tree.iter_descendants 0, ∀ q,
      (lt.tree.getN j).parent = some q →
      ∃ d, IsDepth lt.tree q d ∧ d < lt.tree.nodes.length := by
    intro j hj q hq
    rw [hflat] at hj
    rcases flatten_parent lt.tree _ hm j hj with hjr | ⟨q', hq', hpq', -⟩
    · have hj0 : j = 0 := by simpa [Forest.roots] using hjr
      subst hj0
      rw [hroot] at hq
      exact Option.noConfusion hq
    · have : q' = q := by
        rw [hpq'] at hq
        exact Option.some.inj hq
      subst this
      exact hdepth q' hq'
  have hord : ∀ j ∈ lt.tree.iter_descendants 0, ∀ q,
      (lt.tree.getN j).parent = some q →
        [q, j].Sublist (lt.tree.iter_descendants 0) := by
    intro j hj q hq
    by_cases hj0 : j = 0
    · subst hj0
      rw [hroot] at hq
      exact Option.noConfusion hq
    · obtain ⟨q', hq', hsub⟩ := hparL j hj hj0
      have : q' = q := by
        rw [hq'] at hq
        exact Option.some.inj hq
      subst this
      exact hsub
  obtain ⟨hg1, hg2, hg3⟩ := fkFold_go jt lt.tree (lt.tree.iter_descendants 0)
    hndL hval hdep hord (lt.tree.iter_descendants 0) []
    (List.nil_append _).symm lt.tree (cacheOnly_refl lt.tree)
    (fun j hj => absurd hj (List.not_mem_nil j))
  have hlen : (lt.tree.iter_descendants 0).length = lt.tree.nodes.length := by
    rw [hflat]
    exact nodup_length_eq _ _ hnd hb hcov
  refine ⟨?_, ?_, hhead, ?_, ?_, ?_⟩
  · simp only [IdLinkTree.calc_link_transforms]
    exact hg1
  · simp only [IdLinkTree.calc_link_transforms]
    rw [hg1, List.length_map]
    exact hlen
  · intro j hj
    simp only [IdLinkTree.calc_link_transforms]
    exact hg3 j hj
  · intro j _ hpar
    exact (pathProd_root jt hpar _).symm ▸ pathProd_root jt hpar _
  · intro j hj p hpar
    obtain ⟨d, hd, hdn⟩ := hdep j hj p hpar
    exact pathProd_parent jt hpar hd hdn

/-! Concrete evaluations: shape certificates for the example trees. -/

theorem exTreeChain_wf :
    WFSubtree exTreeChain 0 (Forest.node 1 (Forest.node 2 .nil .nil) .nil) := by
  refine ⟨?_, by decide, by decide⟩
  refine (matchesAux_node _ _ _ _).mpr ⟨by decide, by decide, by decide, ?_, trivial⟩
  refine (matchesAux_node _ _ _ _).mpr ⟨by decide, by decide, by decide, ?_, trivial⟩
  exact (matchesAux_node _ _ _ _).mpr ⟨by decide, by decide, by decide, trivial, trivial⟩

theorem exTreeRootOne_wf :
    WFSubtree exTreeRootOne 1 (Forest.node 0 .nil .nil) := by
  refine ⟨?_, by decide, by decide⟩
  refine (matchesAux_node _ _ _ _).mpr ⟨by decide, by decide, by decide, ?_, trivial⟩
  exact (matchesAux_node _ _ _ _).mpr ⟨by decide, by decide, by decide, trivial, trivial⟩

theorem exTreeChain_depth2 : IsDepth exTreeChain 2 2 :=
  IsDepth.step (show (exTreeChain.getN 2).parent = some 1 by decide)
    (IsDepth.step (show (exTreeChain.getN 1).parent = some 0 by decide)
      (IsDepth.root (show (exTreeChain.getN 0).parent = none by decide)))

/-! Counterexamples and concrete witnesses. -/

/-- C1 counterexample: `exTreeRootOne` is a well-formed kinematic tree in the
claim's sense — its unique parentless root is node 1, with consistent and
acyclic links covering every node — yet `calc_link_transforms` does not
return one pose per node, because the traversal is hardwired to start at
`NodeId(0)` and node 0's subtree misses the root. -/
theorem calc_link_transforms_node_zero_cex :
    WFSubtree exTreeRootOne 1 (Forest.node 0 .nil .nil) ∧
    (exTreeRootOne.getN 1).parent = none ∧
    (∀ j, j < exTreeRootOne.nodes.length →
      j ∈ (Forest.node 1 (Forest.node 0 .nil .nil) .nil).flatten) ∧
    (exLinkTreeRootOne.calc_link_transforms exJt).2.length ≠ exTreeRootOne.nodes.length :=
  ⟨exTreeRootOne_wf, by decide, by decide, by decide⟩

/-- C1 witness: the amended whole-tree FK theorem evaluated on the concrete
three-node chain rooted at node 0. -/
theorem calc_link_transforms_tree_spec_witness :
    (exLinkTreeChain.calc_link_transforms exJt).2.length
      = exLinkTreeChain.tree.nodes.length ∧
    (exLinkTreeChain.tree.iter_descendants 0).head? = some 0 := by
  have h := calc_link_transforms_tree_spec exJt exLinkTreeChain
    (Forest.node 1 (Forest.node 2 .nil .nil) .nil) exTreeChain_wf (by decide) (by decide)
  exact ⟨h.2.1, h.2.2.1⟩

/-- C2 witness: a length-1 input against a 2-DOF chain and against a 0-DOF
tree fails with `SizeMisMatch`, leaving the state untouched. -/
theorem set_joint_angles_size_spec_witness :
    exChain.set_joint_angles [0] = (exChain, some .SizeMisMatch) ∧
    exLinkTreeChain.set_joint_angles [0] = (exLinkTreeChain, some .SizeMisMatch) :=
  ⟨(set_joint_angles_size_spec.1 exChain [0]).1 (by decide),
   (set_joint_angles_size_spec.2 exLinkTreeChain [0]).1 (by decide)⟩

/-- C3 witness: the descendant traversal of the concrete chain visits the
root first and never repeats a node. -/
theorem iter_descendants_order_spec_witness :
    (exTreeChain.iter_descendants 0).head? = some 0 ∧
    (exTreeChain.iter_descendants 0).Nodup := by
  have h := iter_descendants_order_spec exTreeChain 0
    (Forest.node 1 (Forest.node 2 .nil .nil) .nil) exTreeChain_wf
  exact ⟨h.1, h.2.1⟩

/-- C4 witness: the concrete two-joint chain (one limited joint within its
limits, one free joint) round-trips `set_joint_angles (get_joint_angles)`. -/
theorem set_get_joint_angles_roundtrip_witness :
    (exChain.set_joint_angles exChain.get_joint_angles).2 = none ∧
    (exChain.set_joint_angles exChain.get_joint_angles).1.calc_end_transform exJt
      = exChain.calc_end_transform exJt := by
  refine set_get_joint_angles_roundtrip exJt exChain (by decide) ?_
  intro id hid _ r hr
  fin_cases hid
  · have h0 : some ((-1 : ℚ), 1) = some r := hr
    cases Option.some.inj h0
    decide
  · have h0 : (none : Option (ℚ × ℚ)) = some r := hr
    exact Option.noConfusion h0

/-- C5 witness: with an iteration cap of 1 and constant error norms above
the tolerances, solve fails with `NotConverged` and the state is left at the
single attempted step. -/
theorem solve_not_converged_spec_witness :
    exSolver.solve (fun _ : ℚ => 2) (fun _ : ℚ => 2) (fun s => s + 1) 0
      = ((fun s : ℚ => s + 1)^[exSolver.num_max_try] 0, some .NotConverged) := by
  refine solve_not_converged_spec exSolver _ _ _ 0 ?_
  intro k hk
  have h1 : exSolver.num_max_try = 1 := rfl
  rw [h1] at hk
  have hk0 : k = 0 := by omega
  subst hk0
  decide

/-- C6 witness: attaching node 2 as a second child of node 0 in the concrete
chain. -/
theorem set_parent_child_spec_witness :
    ((exTreeChain.set_parent_child 0 2).getN 2).parent = some 0 ∧
    ((exTreeChain.set_parent_child 0 2).getN 0).children
      = (exTreeChain.getN 0).children ++ [2] ∧
    ((exTreeChain.set_parent_child 0 2).getN 0).children.count 2 = 1 := by
  obtain ⟨h1, h2, h3, -, -, -⟩ := set_parent_child_spec exTreeChain 0 2
    (by decide) (by decide) (by decide) (by decide) (by decide)
  exact ⟨h1, h2, h3⟩

/-- C7 witness: the ancestor traversal from the depth-2 leaf of the concrete
chain spans three nodes and starts at the leaf. -/
theorem iter_ancestors_spec_witness :
    (exTreeChain.iter_ancestors 2).length = 2 + 1 ∧
    (exTreeChain.iter_ancestors 2).head? = some 2 := by
  have h := iter_ancestors_spec exTreeChain 2 2 exTreeChain_depth2 (by decide)
  exact ⟨h.1, h.2.1⟩

/-- C8 witness: extracting the chain ending at link "l2" of the concrete
tree yields the reversed ancestor path, leaf id last and a parentless root
first. -/
theorem chain_from_end_link_name_spec_witness :
    ∃ ch : IdKinematicChain Unit ℚ,
      exLinkTreeChain.chain_from_end_link_name "l2" = some ch ∧
      ch.id_list = (exLinkTreeChain.tree.iter_ancestors (exTreeChain.getN 2).id).reverse ∧
      ch.id_list.getLast? = some (exTreeChain.getN 2).id ∧
      (∃ r, ch.id_list.head? = some r ∧ (exLinkTreeChain.tree.getN r).parent = none) ∧
      ch.id_list.length = 2 + 1 :=
  (chain_from_end_link_name_spec exLinkTreeChain "l2").2 (exTreeChain.getN 2)
    (by decide) 2 exTreeChain_depth2 (by decide)

/-- C9 counterexample: on `exTreeRootOne` — a tree with a unique parentless
root, node 1 — `set_root_transform` leaves the root's local transform
untouched and instead overwrites the non-root node 0. -/
theorem set_root_transform_cex :
    (exTreeRootOne.nodes.filter (fun nd => nd.parent = none)).map (fun nd => nd.id)
      = [1] ∧
    (exTreeRootOne.getN 1).parent = none ∧
    (exTreeRootOne.getN 0).parent = some 1 ∧
    ((exLinkTreeRootOne.set_root_transform 5).tree.getN 1).data.transform
      = (exTreeRootOne.getN 1).data.transform ∧
    ((exLinkTreeRootOne.set_root_transform 5).tree.getN 1).data.transform ≠ 5 ∧
    ((exLinkTreeRootOne.set_root_transform 5).tree.getN 0).data
      ≠ (exTreeRootOne.getN 0).data := by
  decide

/-- C9 witness: the amended root transform theorem evaluated on the concrete
chain (whose root is node 0). -/
theorem set_root_transform_spec_witness :
    ((exLinkTreeChain.set_root_transform 5).tree.getN 0).data.transform = 5 ∧
    (exLinkTreeChain.set_root_transform 5).tree.nodes.length
      = exLinkTreeChain.tree.nodes.length := by
  have h := set_root_transform_spec exLinkTreeChain 5 (by decide)
  exact ⟨h.1, h.2.2.2.2.2.2.2.2.1⟩

/-- C10 witness: the concrete two-link chain built by `new` has no end link
name and its end transform is the last link transform. -/
theorem new_chain_end_transform_spec_witness :
    (IdKinematicChain.new "arm" exChainTree [0, 1]).end_link_name = none ∧
    ((IdKinematicChain.new "arm" exChainTree [0, 1]).calc_link_transforms exJt).getLast?
      = some ((IdKinematicChain.new "arm" exChainTree [0, 1]).calc_end_transform exJt) := by
  have h := new_chain_end_transform_spec exJt "arm" exChainTree [0, 1]
  exact ⟨h.1, h.2.2.2.1 (by decide)⟩

end KSpec
